import Mathlib

/-!
Verification of the FidoAdapter protein-inference orchestration pipeline
(TOPPFidoAdapter): accession sanitization, PSM graph encoding with score
validation, target/decoy protein-list encoding, Fido result decoding with
the zero-probability policy, pooled run merging, and the separate-runs
driver loop.

Strings are modelled as lists of characters (Str); floating-point scores
and probabilities are modelled as rationals, since the pipeline only
compares them, subtracts from 1, and tests exact equality with 0.
C++ ordered containers (std::set, std::map) are modelled as sorted lists
ordered by byte-wise lexicographic comparison.
-/

/-- Strings of the C++ source, modelled as lists of characters. -/
abbrev Str := List Char

/-- Strict character comparison by code point, modelling byte-wise
comparison of characters in std::string. -/
def charLtB (a b : Char) : Bool := decide (a.toNat < b.toNat)

/-- Lexicographic strict comparison of lists, parameterized by a strict
element comparison. Models C++ operator less-than on std::string (over
characters) and on std::vector of std::string (over strings). -/
def lexLtB (lt : α → α → Bool) : List α → List α → Bool
  | _, [] => false
  | [], _ :: _ => true
  | a :: as, b :: bs =>
    if lt a b then true else if lt b a then false else lexLtB lt as bs

/-- Strict lexicographic order on modelled strings (std::string operator
less-than). -/
def strLtB (a b : Str) : Bool := lexLtB charLtB a b

/-- Non-strict order on modelled strings, as induced by the strict one. -/
def strLeB (a b : Str) : Bool := !strLtB b a

/-- Insertion into a sorted list, at the first position where the new
element is not greater than the next; used to model sorting. -/
def insertSorted (le : α → α → Bool) (a : α) : List α → List α
  | [] => [a]
  | b :: bs => if le a b then a :: b :: bs else b :: insertSorted le a bs

/-- Insertion sort; models std::sort (the source never relies on
stability or on the order of equivalent elements). -/
def sortBy (le : α → α → Bool) (l : List α) : List α :=
  l.foldr (insertSorted le) []

/-- Insertion into a sorted duplicate-free list of strings; models
std::set of std::string insertion (an element already present is not
inserted again). -/
def setInsert (a : Str) : List Str → List Str
  | [] => [a]
  | b :: bs =>
    if strLtB a b then a :: b :: bs
    else if strLtB b a then b :: setInsert a bs
    else b :: bs

/-- The sorted duplicate-free list of all elements of a list; models
building a std::set of std::string by repeated insertion. -/
def setOfList (l : List Str) : List Str := l.foldl (fun s a => setInsert a s) []

/-- Insert-or-replace into an association list sorted by key; models
std::map assignment through operator square-brackets (last write wins). -/
def mapInsert (k : Str) (v : α) : List (Str × α) → List (Str × α)
  | [] => [(k, v)]
  | (k2, v2) :: rest =>
    if strLtB k k2 then (k, v) :: (k2, v2) :: rest
    else if strLtB k2 k then (k2, v2) :: mapInsert k v rest
    else (k, v) :: rest

/-- Lookup in an association list by key (std::map find). -/
def mapLookup (m : List (Str × α)) (k : Str) : Option α :=
  (m.find? (fun p => p.1 == k)).map (fun p => p.2)

/-- Numeric value of a decimal digit character. -/
def digitVal (c : Char) : Nat := c.toNat - 48

/-- Numeric value of a decimal digit string (most significant first). -/
def digitsVal (l : List Char) : Nat := l.foldl (fun a c => 10 * a + digitVal c) 0

/-- ASCII lower-casing of one character, modelling std::tolower as used by
OpenMS String::toLower. -/
def toLowerCh (c : Char) : Char :=
  if 65 ≤ c.toNat ∧ c.toNat ≤ 90 then Char.ofNat (c.toNat + 32) else c

/-- Lower-casing of a modelled string (String::toLower). -/
def toLowerStr (s : Str) : Str := s.map toLowerCh

/-- A peptide hit: sequence, primary score, user-parameter meta values
(the alternate probability can be read from these), and the protein
accessions referenced by the hit's evidences. -/
structure PeptideHit where
  sequence : Str
  score : ℚ
  metaValues : List (Str × ℚ)
  evidenceAccessions : List Str
deriving DecidableEq

/-- A peptide identification: run identifier, score type, score
orientation, and its hits. -/
structure PeptideIdentification where
  identifier : Str
  scoreType : Str
  higherScoreBetter : Bool
  hits : List PeptideHit
deriving DecidableEq

/-- A protein hit: accession, the string value of its target_decoy meta
annotation (empty when the annotation is missing, matching
getMetaValue on an absent key followed by toString), and a score. -/
structure ProteinHit where
  accession : Str
  targetDecoy : Str
  score : ℚ
deriving DecidableEq

/-- A protein identification run: its identifier and protein hits. -/
structure ProteinIdentification where
  identifier : Str
  hits : List ProteinHit
deriving DecidableEq

/-- Modelled from the spec: PeptideHit::extractProteinAccessions is OpenMS
library code absent from this excerpt; per the spec's data model a peptide
hit carries associated protein references via accession, and the extraction
returns the set of distinct referenced accessions (a C++ std::set, sorted
and deduplicated). -/
def extractAccessions (h : PeptideHit) : List Str := setOfList h.evidenceAccessions

/-- Modelled from the spec: PeptideIdentification::sort is OpenMS library
code absent from this excerpt; per the spec the best hit is the first one
after intra-hit sorting, where best means highest score when
higher-is-better and lowest score otherwise. -/
def sortHits (pid : PeptideIdentification) : List PeptideHit :=
  sortBy (fun a b =>
    if pid.higherScoreBetter then decide (b.score ≤ a.score)
    else decide (a.score ≤ b.score)) pid.hits

/-- Lookup of a user-parameter meta value on a peptide hit
(metaValueExists plus getMetaValue). -/
def findMeta (mv : List (Str × ℚ)) (key : Str) : Option ℚ :=
  (mv.find? (fun p => p.1 == key)).map (fun p => p.2)

/-- Characters at which an accession's sanitized token is cut off:
space, tab, comma and the two braces (find_first_of of that set). -/
def badChar (c : Char) : Bool :=
  c == ' ' || c == '\t' || c == ',' || c == '{' || c == '}'

/-- The valid prefix of an accession: everything before the first
unsafe character (substr from 0 to find_first_of, the whole string
when no unsafe character occurs). -/
def safeStem (a : Str) : Str := a.takeWhile (fun c => !badChar c)

/-- The sanitized token of an accession: its valid prefix, an
underscore, and the decimal rendering of the counter. -/
def sanToken (a : Str) (n : Nat) : Str :=
  safeStem a ++ '_' :: Nat.toDigits 10 n

/-- Walk of the sorted accession set with the 1-based counter, producing
the accession-to-token association in set iteration order. -/
def sanitizeAux : Nat → List Str → List (Str × Str)
  | _, [] => []
  | c, a :: as => (a, sanToken a c) :: sanitizeAux (c + 1) as

/-- All protein hit accessions of all runs, in run and hit order; the
sanitizer is built from exactly these. -/
def allAccessions (runs : List ProteinIdentification) : List Str :=
  runs.flatMap (fun r => r.hits.map (fun h => h.accession))

/-- The sanitizer bimap built in main_: collect the accessions into a
sorted duplicate-free set, then map each to its token with a 1-based
counter over the iteration order. Modelled as the association list in
set order; both lookup directions are defined below. -/
def buildSanitizer (accs : List Str) : List (Str × Str) :=
  sanitizeAux 1 (setOfList accs)

/-- Accession-to-token lookup (the bimap's left map). -/
def lookupLeft (m : List (Str × Str)) (a : Str) : Option Str :=
  (m.find? (fun p => p.1 == a)).map (fun p => p.2)

/-- Token-to-accession lookup (the bimap's right map). -/
def lookupRight (m : List (Str × Str)) (t : Str) : Option Str :=
  (m.find? (fun p => p.2 == t)).map (fun p => p.1)

/-- One record of the PSM graph file: a peptide-sequence line (e), a
protein-node line (r), or a probability line (p). -/
inductive GraphLine where
  | eLine (seq : Str)
  | rLine (tok : Str)
  | pLine (prob : ℚ)
deriving DecidableEq

/-- The hard errors the encoders can raise. The unregistered-accession
case models a failed bimap lookup (in the C++ code dereferencing the
end iterator; per the spec a programming/input error). -/
inductive EncodeError where
  | unsuitableScore (reason : Str)
  | unregisteredAccession (acc : Str)
  | missingTargetDecoy
  | noTargets
  | noDecoys
deriving DecidableEq

/-- The message text of the unsuitable-score error, with the reason
naming the exact problem spliced into it. -/
def scoreErrorMsg (reason : Str) : Str :=
  "Error: Unsuitable score type for peptide-spectrum matches detected (problem: ".data
    ++ reason
    ++ ").\nFido requires probabilities as scores, e.g. as produced by IDPosteriorErrorProbability with the 'prob_correct' option.".data

/-- Score resolution for one peptide hit: use the configured alternate
score field when present; otherwise use the primary score, converting
1 - score when the orientation is lower-is-better and the score type is
posterior error probability or a consensus type (the conversion emits
the one-time advisory), and flagging any other lower-is-better score
type as an error reason. Returns the resolved score, whether the
conversion advisory applies, and the resolution error reason if any. -/
def resolveScore (probParam : Str) (pid : PeptideIdentification) (h : PeptideHit) :
    ℚ × Bool × Option Str :=
  match (if probParam.isEmpty then none else findMeta h.metaValues probParam) with
  | some v => (v, false, none)
  | none =>
    if pid.higherScoreBetter then (h.score, false, none)
    else
      if toLowerStr pid.scoreType == "posterior error probability".data
          || "consensus_".data.isPrefixOf (toLowerStr pid.scoreType) then
        (1 - h.score, true, none)
      else (h.score, false, some "lower scores are better".data)

/-- The final error reason after range validation: a score below 0 or
above 1 overwrites any resolution reason with the specific out-of-range
reason; otherwise the resolution reason stands. -/
def finalReason (s : ℚ) (r : Option Str) : Option Str :=
  if s < 0 then some "score < 0".data
  else if 1 < s then some "score > 1".data
  else r

/-- The protein-node lines of one record: one r line per distinct
non-empty referenced accession, in set order, each through the
sanitizer's left lookup; a failed lookup is the hard
unregistered-accession error. -/
def rLinesFor (m : List (Str × Str)) : List Str → Except EncodeError (List GraphLine)
  | [] => .ok []
  | a :: as =>
    if a.isEmpty then rLinesFor m as
    else
      match lookupLeft m a with
      | none => .error (.unregisteredAccession a)
      | some t => (rLinesFor m as).map (fun ls => GraphLine.rLine t :: ls)

/-- Encoding of one qualifying peptide hit: resolve and validate the
score (raising the unsuitable-score error with its reason when
validation fails), then emit the e line, the r lines and the p line.
Also returns whether the lower-is-better conversion applied. -/
def encodeHit (m : List (Str × Str)) (probParam : Str)
    (pid : PeptideIdentification) (h : PeptideHit) :
    Except EncodeError (List GraphLine × Bool) :=
  match resolveScore probParam pid h with
  | (s, conv, r0) =>
    match finalReason s r0 with
    | some reason => .error (.unsuitableScore reason)
    | none =>
      (rLinesFor m (extractAccessions h)).map (fun rls =>
        (GraphLine.eLine h.sequence :: rls ++ [GraphLine.pLine s], conv))

/-- Whether a peptide identification survives the skip checks of the
graph encoder: it matches the requested run identifier (when one is
requested), has hits, and its best hit has a non-empty sequence and at
least one resolvable accession. -/
def pepSelected (filterId : Str) (pid : PeptideIdentification) : Bool :=
  !((!filterId.isEmpty && pid.identifier != filterId) || pid.hits.isEmpty) &&
    (match sortHits pid with
     | [] => false
     | h :: _ => !h.sequence.isEmpty && !(extractAccessions h).isEmpty)

/-- Graph encoding of one peptide identification: apply the skip checks,
then encode the best hit. Threads the one-time advisory flag and
reports whether the advisory was emitted here. -/
def encodePep (m : List (Str × Str)) (probParam filterId : Str)
    (pid : PeptideIdentification) (warned : Bool) :
    Except EncodeError (List GraphLine × Bool × Bool) :=
  if (!filterId.isEmpty && pid.identifier != filterId) || pid.hits.isEmpty then
    .ok ([], warned, false)
  else
    match sortHits pid with
    | [] => .ok ([], warned, false)
    | h :: _ =>
      if h.sequence.isEmpty || (extractAccessions h).isEmpty then
        .ok ([], warned, false)
      else
        (encodeHit m probParam pid h).map (fun r =>
          (r.1, warned || r.2, r.2 && !warned))

/-- The fold of the graph encoder over the peptide identifications,
threading the advisory flag and counting emitted advisories. -/
def writePSMGraphAux (m : List (Str × Str)) (probParam filterId : Str) :
    List PeptideIdentification → Bool → Nat →
    Except EncodeError (List GraphLine × Nat)
  | [], _, wc => .ok ([], wc)
  | pid :: rest, warned, wc =>
    match encodePep m probParam filterId pid warned with
    | .error e => .error e
    | .ok (ls, warned2, emitted) =>
      (writePSMGraphAux m probParam filterId rest warned2
          (wc + (if emitted then 1 else 0))).map
        (fun r => (ls ++ r.1, r.2))

/-- writePSMGraph_: encode the peptide identifications (optionally
filtered to one run identifier) into the graph file's lines, returning
also how many one-time advisories were emitted during the batch. -/
def writePSMGraph (m : List (Str × Str)) (probParam : Str)
    (peptides : List PeptideIdentification) (filterId : Str) :
    Except EncodeError (List GraphLine × Nat) :=
  writePSMGraphAux m probParam filterId peptides false 0

/-- The fold of writeProteinLists_ over one run's protein hits: look up
each accession's token, then add it to the target or decoy set per the
target_decoy annotation; any other annotation value (including a
missing one) is the hard missing-annotation error. -/
def gatherLists (m : List (Str × Str)) :
    List ProteinHit → List Str → List Str →
    Except EncodeError (List Str × List Str)
  | [], ts, ds => .ok (ts, ds)
  | h :: rest, ts, ds =>
    match lookupLeft m h.accession with
    | none => .error (.unregisteredAccession h.accession)
    | some tok =>
      if h.targetDecoy == "target".data then gatherLists m rest (setInsert tok ts) ds
      else if h.targetDecoy == "decoy".data then gatherLists m rest ts (setInsert tok ds)
      else .error .missingTargetDecoy

/-- writeProteinLists_: partition one run's sanitized accessions into
the target and decoy sets; an empty target set or empty decoy set is a
hard error. -/
def writeProteinLists (m : List (Str × Str)) (run : ProteinIdentification) :
    Except EncodeError (List Str × List Str) :=
  match gatherLists m run.hits [] [] with
  | .error e => .error e
  | .ok (ts, ds) =>
    if ts.isEmpty then .error .noTargets
    else if ds.isEmpty then .error .noDecoys
    else .ok (ts, ds)

/-- A protein group of the inference output: shared probability plus
the accession list. -/
structure ProteinGroup where
  probability : ℚ
  accessions : List Str
deriving DecidableEq

/-- Modelled from the spec: ProteinIdentification::ProteinGroup and its
comparison operator are OpenMS library code absent from this excerpt;
per the spec groups are ordered by probability first, then by
lexicographic comparison of the accession lists. -/
def groupLtB (g1 g2 : ProteinGroup) : Bool :=
  if g1.probability < g2.probability then true
  else if g2.probability < g1.probability then false
  else lexLtB strLtB g1.accessions g2.accessions

/-- Non-strict group order induced by the strict one; std::sort leaves
the groups pairwise in this relation. -/
def groupLeB (g1 g2 : ProteinGroup) : Bool := !groupLtB g2 g1

/-- Decoding of the whitespace tokens of one Fido output line (after the
leading probability): tokens of length at most 1 are skipped as braces
or commas; for a zero-probability group each remaining token bumps the
zero-probability counter and is dropped unless the keep policy is on;
surviving tokens are de-sanitized through the right lookup, a failed
lookup being the hard unregistered-accession error. Returns the
de-sanitized accessions in token order plus the counter increment. -/
def decodeToks (m : List (Str × Str)) (keep : Bool) (prob : ℚ) :
    List Str → Except EncodeError (List Str × Nat)
  | [] => .ok ([], 0)
  | t :: ts =>
    if t.length ≤ 1 then decodeToks m keep prob ts
    else if prob = 0 then
      if keep then
        match lookupRight m t with
        | none => .error (.unregisteredAccession t)
        | some a => (decodeToks m keep prob ts).map (fun r => (a :: r.1, r.2 + 1))
      else (decodeToks m keep prob ts).map (fun r => (r.1, r.2 + 1))
    else
      match lookupRight m t with
      | none => .error (.unregisteredAccession t)
      | some a => (decodeToks m keep prob ts).map (fun r => (a :: r.1, r.2))

/-- Decoding of the Fido output lines, each already split into its
leading probability and its remaining whitespace tokens: a group whose
accession list ends up empty is dropped, any other group is kept with
its accessions sorted; returns the groups in line order together with
the grouped-protein count and the zero-probability protein count. -/
def decodeLines (m : List (Str × Str)) (keep : Bool) :
    List (ℚ × List Str) → Except EncodeError (List ProteinGroup × Nat × Nat)
  | [] => .ok ([], 0, 0)
  | (prob, toks) :: rest =>
    match decodeToks m keep prob toks with
    | .error e => .error e
    | .ok (accs, zp) =>
      match decodeLines m keep rest with
      | .error e => .error e
      | .ok (gs, pc, zps) =>
        if accs.isEmpty then .ok (gs, pc, zps + zp)
        else .ok (⟨prob, sortBy strLeB accs⟩ :: gs, pc + accs.length, zps + zp)

/-- The result-decoding phase of runFido_: decode the lines, then sort
the full group list before it is attached to the run. -/
def decodeFidoOutput (m : List (Str × Str)) (keep : Bool)
    (lines : List (ℚ × List Str)) :
    Except EncodeError (List ProteinGroup × Nat × Nat) :=
  (decodeLines m keep lines).map (fun r => (sortBy groupLeB r.1, r.2.1, r.2.2))

/-- The accession-keyed hit map of the pooled merge: scan the runs in
reverse and each run's hits in reverse, assigning each hit into the map
so that after the full scan the first forward occurrence of each
accession is the one stored. -/
def buildHitMap (runs : List ProteinIdentification) : List (Str × ProteinHit) :=
  runs.reverse.foldl
    (fun mp r => r.hits.reverse.foldl (fun mp2 h => mapInsert h.accession h mp2) mp)
    []

/-- The hits of the synthesized pooled run, inserted in map iteration
order (ascending accession). -/
def mergedHits (runs : List ProteinIdentification) : List ProteinHit :=
  (buildHitMap runs).map (fun p => p.2)

/-- The numeric suffix of the per-run temp file names: empty for
counter 0, otherwise a dot followed by the decimal counter. -/
def numSuffix (counter : Nat) : Str :=
  if counter = 0 then [] else '.' :: Nat.toDigits 10 counter

/-- The temp path of the graph file for one invocation. -/
def graphFilePath (tempDir : Str) (counter : Nat) : Str :=
  tempDir ++ "fido_input_graph".data ++ numSuffix counter ++ ".txt".data

/-- The temp path of the protein-list file for one invocation. -/
def proteinsFilePath (tempDir : Str) (counter : Nat) : Str :=
  tempDir ++ "fido_input_proteins".data ++ numSuffix counter ++ ".txt".data

/-- Replacement of every occurrence of a pattern inside one string,
scanning left to right and never rescanning inserted text, modelling
QString::replace with case-sensitive matching. The fuel argument is
the string's length; each step consumes at least one character. An
empty pattern is left unreplaced (the program only ever substitutes
the non-empty INPUT_GRAPH and INPUT_PROTEINS placeholders). -/
def replaceSubAux (pat rep : Str) : Nat → Str → Str
  | 0, s => s
  | _ + 1, [] => []
  | fuel + 1, c :: rest =>
    if pat.isPrefixOf (c :: rest) && !pat.isEmpty then
      rep ++ replaceSubAux pat rep fuel (rest.drop (pat.length - 1))
    else c :: replaceSubAux pat rep fuel rest

/-- QString::replace applied with sufficient fuel. -/
def replaceSub (pat rep s : Str) : Str := replaceSubAux pat rep s.length s

/-- QStringList::replaceInStrings: the substring replacement applied to
every string of the argument list. -/
def replaceInStrings (pat rep : Str) (params : List Str) : List Str :=
  params.map (replaceSub pat rep)

/-- One engine invocation of the separate-runs loop: the temp path this
run's graph file is written to, the graph encoded for this run (from
the peptide identifications under the run's identifier as filter), and
the argument list the engine process is started with. -/
structure EngineInvocation where
  runGraphPath : Str
  graph : Except EncodeError (List GraphLine × Nat)
  engineArgs : List Str

/-- The separate-runs loop of main_ with the engine argument list
threaded through, as in the source where fido_params is built once and
passed to every runFido_ call by reference: each iteration substitutes
the INPUT_GRAPH placeholder (and, in parameter-estimation mode,
INPUT_PROTEINS) in the current argument list in place, writes this
run's files at the counter-suffixed temp paths, and starts the engine
with the resulting argument list, which the next iteration then
inherits. -/
def separateRunsInvocationsAux (m : List (Str × Str)) (probParam : Str)
    (chooseParams : Bool) (tempDir : Str)
    (peptides : List PeptideIdentification) :
    Nat → List Str → List ProteinIdentification → List EngineInvocation
  | _, _, [] => []
  | c, params, r :: rs =>
    let params2 := replaceInStrings "INPUT_GRAPH".data (graphFilePath tempDir c) params
    let params3 :=
      if chooseParams then
        replaceInStrings "INPUT_PROTEINS".data (proteinsFilePath tempDir c) params2
      else params2
    ⟨graphFilePath tempDir c,
     writePSMGraph m probParam peptides r.identifier, params3⟩
      :: separateRunsInvocationsAux m probParam chooseParams tempDir peptides
          (c + 1) params3 rs

/-- The full separate-runs invocation sequence: the counter starts at 1
and the argument list starts from the placeholder-bearing fido_params
that main_ assembled once before the loop. -/
def separateRunsInvocations (m : List (Str × Str)) (probParam : Str)
    (chooseParams : Bool) (tempDir : Str)
    (peptides : List PeptideIdentification) (fidoParams : List Str)
    (runs : List ProteinIdentification) : List EngineInvocation :=
  separateRunsInvocationsAux m probParam chooseParams tempDir peptides 1 fidoParams runs

/-- The success-flag accumulation of the separate-runs loop: the flag
starts false and is overwritten by each run's outcome; the second
component counts the runs attempted. The per-run engine outcome is the
value runFido_ returns when no exception is thrown. -/
def separateLoop (outcomes : List Bool) : Bool × Nat :=
  outcomes.foldl (fun st b => (b, st.2 + 1)) (false, 0)

/-- The externally visible effects of one runFido_ invocation, in
order: writing the graph file, writing the protein-list file, starting
the engine process. -/
inductive FidoEvent where
  | wroteGraph (path : Str)
  | wroteProteins (path : Str)
  | engineStarted
deriving DecidableEq

/-- One runFido_ invocation as an effect trace plus a result: write the
graph file; in parameter-estimation mode also write the protein lists
(their hard errors propagate as exceptions before the engine starts);
then start the engine. The engine is external: its standard output is
an oracle parameter, none meaning the process failed to run (runFido_
returns false without raising). Decoding errors of its output
propagate as exceptions. -/
def runFidoModel (m : List (Str × Str)) (probParam : Str)
    (chooseParams keep : Bool) (tempDir : Str) (counter : Nat)
    (run : ProteinIdentification) (peptides : List PeptideIdentification)
    (engineOut : Option (List (ℚ × List Str))) :
    List FidoEvent × Except EncodeError Bool :=
  match writePSMGraph m probParam peptides run.identifier with
  | .error e => ([], .error e)
  | .ok _ =>
    let evs := [FidoEvent.wroteGraph (graphFilePath tempDir counter)]
    if chooseParams then
      match writeProteinLists m run with
      | .error e => (evs, .error e)
      | .ok _ =>
        let evs2 := evs ++ [FidoEvent.wroteProteins (proteinsFilePath tempDir counter)]
        match engineOut with
        | none => (evs2 ++ [FidoEvent.engineStarted], .ok false)
        | some out =>
          match decodeFidoOutput m keep out with
          | .error e => (evs2 ++ [FidoEvent.engineStarted], .error e)
          | .ok _ => (evs2 ++ [FidoEvent.engineStarted], .ok true)
    else
      match engineOut with
      | none => (evs ++ [FidoEvent.engineStarted], .ok false)
      | some out =>
        match decodeFidoOutput m keep out with
        | .error e => (evs ++ [FidoEvent.engineStarted], .error e)
        | .ok _ => (evs ++ [FidoEvent.engineStarted], .ok true)

/-- Whether a result is the failed-bimap-lookup error. -/
def isLookupError : Except EncodeError α → Bool
  | .error (.unregisteredAccession _) => true
  | _ => false

theorem charLtB_irrefl (a : Char) : charLtB a a = false := by
  simp [charLtB]

theorem charLtB_trans (a b c : Char) (h1 : charLtB a b = true)
    (h2 : charLtB b c = true) : charLtB a c = true := by
  simp only [charLtB, decide_eq_true_eq] at h1 h2 ⊢
  omega

theorem charLtB_conn (a b : Char) (h1 : charLtB a b = false)
    (h2 : charLtB b a = false) : a = b := by
  simp only [charLtB, decide_eq_false_iff_not, Nat.not_lt] at h1 h2
  have hn : a.toNat = b.toNat := Nat.le_antisymm h2 h1
  exact Char.ext_iff.2 (UInt32.ext_iff.2 hn)

theorem lexLtB_irrefl (lt : α → α → Bool) (hirr : ∀ a, lt a a = false) :
    ∀ l, lexLtB lt l l = false
  | [] => rfl
  | a :: as => by
    simp [lexLtB, hirr a, lexLtB_irrefl lt hirr as]

theorem lexLtB_conn (lt : α → α → Bool)
    (hconn : ∀ a b, lt a b = false → lt b a = false → a = b) :
    ∀ l1 l2, lexLtB lt l1 l2 = false → lexLtB lt l2 l1 = false → l1 = l2
  | [], [], _, _ => rfl
  | [], _ :: _, h12, _ => by simp [lexLtB] at h12
  | _ :: _, [], _, h21 => by simp [lexLtB] at h21
  | a :: as, b :: bs, h12, h21 => by
    simp only [lexLtB] at h12 h21
    by_cases hab : lt a b = true
    · simp [hab] at h12
    · by_cases hba : lt b a = true
      · simp [hba] at h21
      · have hb : lt a b = false := by simpa using hab
        have hb2 : lt b a = false := by simpa using hba
        have heq : a = b := hconn a b hb hb2
        simp [hb, hb2] at h12 h21
        have := lexLtB_conn lt hconn as bs h12 h21
        rw [heq, this]

theorem lexLtB_trans (lt : α → α → Bool)
    (hirr : ∀ a, lt a a = false)
    (htr : ∀ a b c, lt a b = true → lt b c = true → lt a c = true)
    (hconn : ∀ a b, lt a b = false → lt b a = false → a = b) :
    ∀ l1 l2 l3, lexLtB lt l1 l2 = true → lexLtB lt l2 l3 = true →
      lexLtB lt l1 l3 = true
  | _, [], _, h12, _ => by simp [lexLtB] at h12
  | _, _ :: _, [], _, h23 => by simp [lexLtB] at h23
  | [], b :: bs, c :: cs, _, _ => by simp [lexLtB]
  | a :: as, b :: bs, c :: cs, h12, h23 => by
    simp only [lexLtB] at h12 h23 ⊢
    by_cases hab : lt a b = true
    · by_cases hbc : lt b c = true
      · simp [htr a b c hab hbc]
      · have hbc0 : lt b c = false := by simpa using hbc
        by_cases hcb : lt c b = true
        · simp [hbc0, hcb] at h23
        · have hcb0 : lt c b = false := by simpa using hcb
          have : b = c := hconn b c hbc0 hcb0
          subst this
          simp [hab]
    · have hab0 : lt a b = false := by simpa using hab
      by_cases hba : lt b a = true
      · simp [hab0, hba] at h12
      · have hba0 : lt b a = false := by simpa using hba
        have heq : a = b := hconn a b hab0 hba0
        subst heq
        simp only [hab0, Bool.false_eq_true, if_false] at h12
        by_cases hbc : lt a c = true
        · simp [hbc]
        · have hbc0 : lt a c = false := by simpa using hbc
          by_cases hcb : lt c a = true
          · simp [hbc0, hcb] at h23
          · have hcb0 : lt c a = false := by simpa using hcb
            have : a = c := hconn a c hbc0 hcb0
            subst this
            simp only [hirr a, if_false] at h23 ⊢
            exact lexLtB_trans lt hirr htr hconn as bs cs h12 h23

theorem strLtB_irrefl (a : Str) : strLtB a a = false :=
  lexLtB_irrefl charLtB charLtB_irrefl a

theorem strLtB_trans (a b c : Str) (h1 : strLtB a b = true)
    (h2 : strLtB b c = true) : strLtB a c = true :=
  lexLtB_trans charLtB charLtB_irrefl charLtB_trans charLtB_conn a b c h1 h2

theorem strLtB_conn (a b : Str) (h1 : strLtB a b = false)
    (h2 : strLtB b a = false) : a = b :=
  lexLtB_conn charLtB charLtB_conn a b h1 h2

theorem strLtB_asymm (a b : Str) (h : strLtB a b = true) : strLtB b a = false := by
  by_cases h2 : strLtB b a = true
  · have := strLtB_trans a b a h h2
    rw [strLtB_irrefl] at this
    exact absurd this (by simp)
  · simpa using h2

theorem insertSorted_perm (le : α → α → Bool) (a : α) :
    ∀ l : List α, List.Perm (insertSorted le a l) (a :: l)
  | [] => List.Perm.refl _
  | b :: bs => by
    simp only [insertSorted]
    by_cases h : le a b = true
    · rw [if_pos h]
    · rw [if_neg h]
      exact ((insertSorted_perm le a bs).cons b).trans (List.Perm.swap a b bs)

theorem mem_insertSorted (le : α → α → Bool) (a x : α) (l : List α) :
    x ∈ insertSorted le a l ↔ x = a ∨ x ∈ l := by
  rw [(insertSorted_perm le a l).mem_iff]
  simp

theorem pairwise_insertSorted (le : α → α → Bool)
    (htot : ∀ a b, le a b = true ∨ le b a = true)
    (htr : ∀ a b c, le a b = true → le b c = true → le a c = true)
    (a : α) : ∀ l, List.Pairwise (fun x y => le x y = true) l →
      List.Pairwise (fun x y => le x y = true) (insertSorted le a l)
  | [], _ => by simp [insertSorted]
  | b :: bs, h => by
    simp only [insertSorted]
    rcases List.pairwise_cons.1 h with ⟨hb, hbs⟩
    by_cases hab : le a b = true
    · rw [if_pos hab]
      refine List.pairwise_cons.2 ⟨?_, h⟩
      intro x hx
      rcases List.mem_cons.1 hx with rfl | hx2
      · exact hab
      · exact htr a b x hab (hb x hx2)
    · rw [if_neg hab]
      have hba : le b a = true := (htot a b).resolve_left hab
      refine List.pairwise_cons.2 ⟨?_, pairwise_insertSorted le htot htr a bs hbs⟩
      intro x hx
      rcases List.mem_cons.1 ((insertSorted_perm le a bs).mem_iff.1 hx) with rfl | hx2
      · exact hba
      · exact hb x hx2

theorem sortBy_perm (le : α → α → Bool) : ∀ l : List α, List.Perm (sortBy le l) l
  | [] => List.Perm.refl _
  | a :: as => by
    simp only [sortBy, List.foldr_cons]
    exact (insertSorted_perm le a _).trans ((sortBy_perm le as).cons a)

theorem mem_sortBy (le : α → α → Bool) (l : List α) (x : α) :
    x ∈ sortBy le l ↔ x ∈ l :=
  (sortBy_perm le l).mem_iff

theorem length_sortBy (le : α → α → Bool) (l : List α) :
    (sortBy le l).length = l.length :=
  (sortBy_perm le l).length_eq

theorem pairwise_sortBy (le : α → α → Bool)
    (htot : ∀ a b, le a b = true ∨ le b a = true)
    (htr : ∀ a b c, le a b = true → le b c = true → le a c = true) :
    ∀ l : List α, List.Pairwise (fun x y => le x y = true) (sortBy le l)
  | [] => by simp [sortBy]
  | a :: as => by
    simp only [sortBy, List.foldr_cons]
    exact pairwise_insertSorted le htot htr a _ (pairwise_sortBy le htot htr as)

theorem mem_setInsert (a x : Str) : ∀ s, x ∈ setInsert a s ↔ x = a ∨ x ∈ s
  | [] => by simp [setInsert]
  | b :: bs => by
    simp only [setInsert]
    by_cases h1 : strLtB a b = true
    · rw [if_pos h1]
      simp only [List.mem_cons]
    · rw [if_neg h1]
      by_cases h2 : strLtB b a = true
      · rw [if_pos h2]
        simp only [List.mem_cons, mem_setInsert a x bs]
        tauto
      · rw [if_neg h2]
        have heq : b = a :=
          strLtB_conn b a (by simpa using h2) (by simpa using h1)
        subst heq
        simp only [List.mem_cons]
        tauto

theorem pairwise_setInsert (a : Str) :
    ∀ s, List.Pairwise (fun x y => strLtB x y = true) s →
      List.Pairwise (fun x y => strLtB x y = true) (setInsert a s)
  | [], _ => by simp [setInsert]
  | b :: bs, h => by
    simp only [setInsert]
    rcases List.pairwise_cons.1 h with ⟨hb, hbs⟩
    by_cases h1 : strLtB a b = true
    · rw [if_pos h1]
      refine List.pairwise_cons.2 ⟨?_, h⟩
      intro x hx
      rcases List.mem_cons.1 hx with rfl | hx2
      · exact h1
      · exact strLtB_trans a b x h1 (hb x hx2)
    · rw [if_neg h1]
      by_cases h2 : strLtB b a = true
      · rw [if_pos h2]
        refine List.pairwise_cons.2 ⟨?_, pairwise_setInsert a bs hbs⟩
        intro x hx
        rcases (mem_setInsert a x bs).1 hx with rfl | hx2
        · exact h2
        · exact hb x hx2
      · rw [if_neg h2]
        exact h

theorem mem_setOfList_loop (x : Str) :
    ∀ (l s : List Str),
      (x ∈ l.foldl (fun s2 a => setInsert a s2) s ↔ x ∈ l ∨ x ∈ s)
  | [], s => by simp
  | a :: as, s => by
    simp only [List.foldl_cons]
    rw [mem_setOfList_loop x as (setInsert a s)]
    simp only [mem_setInsert, List.mem_cons]
    tauto

theorem pairwise_setOfList_loop :
    ∀ (l s : List Str), List.Pairwise (fun x y => strLtB x y = true) s →
      List.Pairwise (fun x y => strLtB x y = true)
        (l.foldl (fun s2 a => setInsert a s2) s)
  | [], _, h => h
  | a :: as, s, h => by
    simp only [List.foldl_cons]
    exact pairwise_setOfList_loop as (setInsert a s) (pairwise_setInsert a s h)

theorem mem_setOfList (x : Str) (l : List Str) : x ∈ setOfList l ↔ x ∈ l := by
  rw [setOfList, mem_setOfList_loop]
  simp

theorem pairwise_setOfList (l : List Str) :
    List.Pairwise (fun x y => strLtB x y = true) (setOfList l) :=
  pairwise_setOfList_loop l [] (List.Pairwise.nil)

theorem mapLookup_cons (k1 : Str) (v1 : α) (rest : List (Str × α)) (k2 : Str) :
    mapLookup ((k1, v1) :: rest) k2 = if k1 = k2 then some v1 else mapLookup rest k2 := by
  by_cases h : k1 = k2
  · subst h
    simp only [mapLookup]
    rw [List.find?_cons_of_pos _ (by simp)]
    simp
  · simp only [mapLookup]
    rw [List.find?_cons_of_neg _ (by simpa using h)]
    simp [h]

theorem mapLookup_mapInsert (k : Str) (v : α) :
    ∀ (m : List (Str × α)) (k2 : Str),
      mapLookup (mapInsert k v m) k2 = if k2 = k then some v else mapLookup m k2
  | [], k2 => by
    by_cases h : k2 = k
    · subst h; simp [mapInsert, mapLookup_cons]
    · simp [mapInsert, mapLookup_cons, h, Ne.symm h, mapLookup]
  | (k1, v1) :: rest, k2 => by
    simp only [mapInsert]
    by_cases h1 : strLtB k k1 = true
    · rw [if_pos h1]
      by_cases h : k2 = k
      · subst h; simp [mapLookup_cons]
      · simp [mapLookup_cons, h, Ne.symm h]
    · rw [if_neg h1]
      by_cases h2 : strLtB k1 k = true
      · rw [if_pos h2]
        have hne : k1 ≠ k := fun hh => by
          rw [hh, strLtB_irrefl] at h2; exact absurd h2 (by simp)
        by_cases hk : k1 = k2
        · subst hk
          have hne2 : k ≠ k1 := fun hh => hne hh.symm
          simp [mapLookup_cons, hne, hne2]
        · rw [mapLookup_cons, if_neg hk, mapLookup_mapInsert k v rest k2,
              mapLookup_cons, if_neg hk]
      · have heq : k1 = k :=
          strLtB_conn k1 k (by simpa using h2) (by simpa using h1)
        subst heq
        rw [if_neg (by rw [strLtB_irrefl]; simp)]
        by_cases h : k2 = k1
        · subst h; simp [mapLookup_cons]
        · simp [mapLookup_cons, h, Ne.symm h]

theorem mem_mapInsert (k : Str) (v : α) :
    ∀ (m : List (Str × α)) (p : Str × α), p ∈ mapInsert k v m → p = (k, v) ∨ p ∈ m
  | [], p, hp => by simpa [mapInsert] using hp
  | (k1, v1) :: rest, p, hp => by
    simp only [mapInsert] at hp
    by_cases h1 : strLtB k k1 = true
    · rw [if_pos h1] at hp
      simpa using hp
    · rw [if_neg h1] at hp
      by_cases h2 : strLtB k1 k = true
      · rw [if_pos h2] at hp
        rcases List.mem_cons.1 hp with rfl | hp2
        · simp
        · rcases mem_mapInsert k v rest p hp2 with rfl | hp3
          · simp
          · simp [hp3]
      · rw [if_neg h2] at hp
        rcases List.mem_cons.1 hp with rfl | hp2
        · simp
        · simp [hp2]

theorem pairwise_mapInsert (k : Str) (v : α) :
    ∀ m : List (Str × α),
      List.Pairwise (fun p q => strLtB p.1 q.1 = true) m →
      List.Pairwise (fun p q => strLtB p.1 q.1 = true) (mapInsert k v m)
  | [], _ => by simp [mapInsert]
  | (k1, v1) :: rest, h => by
    simp only [mapInsert]
    rcases List.pairwise_cons.1 h with ⟨hb, hbs⟩
    by_cases h1 : strLtB k k1 = true
    · rw [if_pos h1]
      refine List.pairwise_cons.2 ⟨?_, h⟩
      intro x hx
      rcases List.mem_cons.1 hx with rfl | hx2
      · exact h1
      · exact strLtB_trans k k1 x.1 h1 (hb x hx2)
    · rw [if_neg h1]
      by_cases h2 : strLtB k1 k = true
      · rw [if_pos h2]
        refine List.pairwise_cons.2 ⟨?_, pairwise_mapInsert k v rest hbs⟩
        intro x hx
        rcases mem_mapInsert k v rest x hx with rfl | hx2
        · exact h2
        · exact hb x hx2
      · have heq : k1 = k :=
          strLtB_conn k1 k (by simpa using h2) (by simpa using h1)
        subst heq
        rw [if_neg h1]
        exact List.pairwise_cons.2 ⟨hb, hbs⟩

theorem digitChar_isDigit (m : Nat) (h : m < 10) : (Nat.digitChar m).isDigit = true := by
  interval_cases m <;> decide

theorem digitVal_digitChar (m : Nat) (h : m < 10) : digitVal (Nat.digitChar m) = m := by
  interval_cases m <;> decide

theorem toDigitsCore_acc (f : Nat) :
    ∀ (n : Nat) (ds : List Char),
      Nat.toDigitsCore 10 f n ds = Nat.toDigitsCore 10 f n [] ++ ds := by
  induction f with
  | zero => intro n ds; simp [Nat.toDigitsCore]
  | succ f ih =>
    intro n ds
    simp only [Nat.toDigitsCore]
    by_cases h : n / 10 = 0
    · rw [if_pos h, if_pos h]
      simp
    · rw [if_neg h, if_neg h]
      rw [ih (n / 10) (Nat.digitChar (n % 10) :: ds),
          ih (n / 10) [Nat.digitChar (n % 10)]]
      simp

theorem toDigitsCore_digits (f : Nat) :
    ∀ (n : Nat) (ds : List Char) (c : Char), c ∈ Nat.toDigitsCore 10 f n ds →
      c.isDigit = true ∨ c ∈ ds := by
  induction f with
  | zero => intro n ds c hc; right; simpa [Nat.toDigitsCore] using hc
  | succ f ih =>
    intro n ds c hc
    simp only [Nat.toDigitsCore] at hc
    by_cases h : n / 10 = 0
    · rw [if_pos h] at hc
      rcases List.mem_cons.1 hc with rfl | hm
      · exact Or.inl (digitChar_isDigit _ (Nat.mod_lt _ (by norm_num)))
      · exact Or.inr hm
    · rw [if_neg h] at hc
      rcases ih (n / 10) (Nat.digitChar (n % 10) :: ds) c hc with hd | hm
      · exact Or.inl hd
      · rcases List.mem_cons.1 hm with rfl | hm2
        · exact Or.inl (digitChar_isDigit _ (Nat.mod_lt _ (by norm_num)))
        · exact Or.inr hm2

theorem toDigits_isDigit (n : Nat) (c : Char) (hc : c ∈ Nat.toDigits 10 n) :
    c.isDigit = true := by
  rcases toDigitsCore_digits (n + 1) n [] c hc with h | h
  · exact h
  · simp at h

theorem digitsVal_append (l : List Char) (c : Char) :
    digitsVal (l ++ [c]) = 10 * digitsVal l + digitVal c := by
  simp [digitsVal, List.foldl_append]

theorem digitsVal_toDigitsCore (f : Nat) :
    ∀ n : Nat, n < f → digitsVal (Nat.toDigitsCore 10 f n []) = n := by
  induction f with
  | zero => intro n h; omega
  | succ f ih =>
    intro n h
    simp only [Nat.toDigitsCore]
    by_cases h0 : n / 10 = 0
    · rw [if_pos h0]
      have hv : digitsVal [Nat.digitChar (n % 10)] = digitVal (Nat.digitChar (n % 10)) := by
        simp [digitsVal]
      rw [hv, digitVal_digitChar _ (by omega)]
      omega
    · rw [if_neg h0]
      rw [toDigitsCore_acc f (n / 10) [Nat.digitChar (n % 10)]]
      rw [digitsVal_append, ih (n / 10) (by omega), digitVal_digitChar _ (by omega)]
      omega

theorem toDigits_val (n : Nat) : digitsVal (Nat.toDigits 10 n) = n :=
  digitsVal_toDigitsCore (n + 1) n (Nat.lt_succ_self n)

theorem toDigits_inj (m n : Nat) (h : Nat.toDigits 10 m = Nat.toDigits 10 n) :
    m = n := by
  have hm := toDigits_val m
  rw [h, toDigits_val] at hm
  omega

theorem sep_eq_aux (c : Char) (hc : c.isDigit = false) :
    ∀ (a1 a2 s1 s2 : List Char),
      (∀ x ∈ a1, x.isDigit = true) → (∀ x ∈ a2, x.isDigit = true) →
      a1 ++ c :: s1 = a2 ++ c :: s2 → a1 = a2
  | [], [], _, _, _, _, _ => rfl
  | [], y :: ys, s1, s2, _, h2, h => by
    simp only [List.nil_append, List.cons_append, List.cons.injEq] at h
    rcases h with ⟨rfl, _⟩
    have hd := h2 c (by simp)
    rw [hc] at hd
    exact absurd hd (by simp)
  | x :: xs, [], s1, s2, h1, _, h => by
    simp only [List.nil_append, List.cons_append, List.cons.injEq] at h
    have hd := h1 x (by simp)
    rw [h.1, hc] at hd
    exact absurd hd (by simp)
  | x :: xs, y :: ys, s1, s2, h1, h2, h => by
    simp only [List.cons_append, List.cons.injEq] at h
    rcases h with ⟨rfl, h⟩
    rw [sep_eq_aux c hc xs ys s1 s2 (fun z hz => h1 z (by simp [hz]))
      (fun z hz => h2 z (by simp [hz])) h]

theorem sep_digits_eq (c : Char) (hc : c.isDigit = false)
    (d1 d2 p1 p2 : List Char)
    (h1 : ∀ x ∈ d1, x.isDigit = true) (h2 : ∀ x ∈ d2, x.isDigit = true)
    (h : p1 ++ c :: d1 = p2 ++ c :: d2) : d1 = d2 := by
  have hr := congrArg List.reverse h
  simp only [List.reverse_append, List.reverse_cons, List.append_assoc,
    List.singleton_append] at hr
  have haux := sep_eq_aux c hc d1.reverse d2.reverse p1.reverse p2.reverse
    (fun x hx => h1 x (List.mem_reverse.1 hx))
    (fun x hx => h2 x (List.mem_reverse.1 hx)) hr
  have hrr := congrArg List.reverse haux
  simpa using hrr

theorem sanToken_inj_counter (a1 a2 : Str) (n1 n2 : Nat)
    (h : sanToken a1 n1 = sanToken a2 n2) : n1 = n2 := by
  simp only [sanToken] at h
  have hd := sep_digits_eq '_' (by decide) (Nat.toDigits 10 n1) (Nat.toDigits 10 n2)
    (safeStem a1) (safeStem a2) (fun x hx => toDigits_isDigit n1 x hx)
    (fun x hx => toDigits_isDigit n2 x hx) h
  exact toDigits_inj n1 n2 hd

theorem lookupLeft_eq_mapLookup (m : List (Str × Str)) (a : Str) :
    lookupLeft m a = mapLookup m a := rfl

theorem lookupRight_cons (a t : Str) (rest : List (Str × Str)) (q : Str) :
    lookupRight ((a, t) :: rest) q = if t = q then some a else lookupRight rest q := by
  by_cases h : t = q
  · subst h
    simp only [lookupRight]
    rw [List.find?_cons_of_pos _ (by simp)]
    simp
  · simp only [lookupRight]
    rw [List.find?_cons_of_neg _ (by simpa using h)]
    simp [h]

theorem setOfList_nodup (l : List Str) : (setOfList l).Nodup := by
  refine (pairwise_setOfList l).imp ?_
  intro a b hab heq
  subst heq
  rw [strLtB_irrefl] at hab
  exact absurd hab (by simp)

theorem lookupLeft_sanitizeAux :
    ∀ (S : List Str) (c : Nat), S.Nodup →
      ∀ (i : Nat) (h : i < S.length),
        lookupLeft (sanitizeAux c S) S[i] = some (sanToken S[i] (c + i))
  | [], _, _, i, h => by simp at h
  | a :: as, c, _, 0, _ => by
    simp only [sanitizeAux, List.getElem_cons_zero]
    rw [lookupLeft_eq_mapLookup, mapLookup_cons, if_pos rfl, Nat.add_zero]
  | a :: as, c, hnd, i + 1, h => by
    have hi : i < as.length := by simpa using Nat.lt_of_succ_lt_succ h
    simp only [sanitizeAux, List.getElem_cons_succ]
    have hmem : as[i] ∈ as := List.getElem_mem hi
    have hne : a ≠ as[i] := by
      intro heq
      exact (List.nodup_cons.1 hnd).1 (heq ▸ hmem)
    rw [lookupLeft_eq_mapLookup, mapLookup_cons, if_neg hne,
        ← lookupLeft_eq_mapLookup]
    have harith : c + 1 + i = c + (i + 1) := by omega
    rw [lookupLeft_sanitizeAux as (c + 1) (List.nodup_cons.1 hnd).2 i hi, harith]

theorem lookupRight_sanitizeAux :
    ∀ (S : List Str) (c : Nat) (i : Nat) (h : i < S.length),
      lookupRight (sanitizeAux c S) (sanToken S[i] (c + i)) = some S[i]
  | [], _, i, h => by simp at h
  | a :: as, c, 0, _ => by
    simp only [sanitizeAux, List.getElem_cons_zero]
    rw [lookupRight_cons, if_pos (by rw [Nat.add_zero])]
  | a :: as, c, i + 1, h => by
    have hi : i < as.length := by simpa using Nat.lt_of_succ_lt_succ h
    simp only [sanitizeAux, List.getElem_cons_succ]
    have hne : sanToken a c ≠ sanToken as[i] (c + (i + 1)) := by
      intro heq
      have := sanToken_inj_counter a as[i] c (c + (i + 1)) heq
      omega
    rw [lookupRight_cons, if_neg hne]
    have harith : c + (i + 1) = c + 1 + i := by omega
    rw [harith]
    exact lookupRight_sanitizeAux as (c + 1) i hi

/-- C2: for every accession A registered at sanitize time, the sanitize
lookup yields a token that de-sanitizes back to A, the sanitize lookup is
injective over the registered accessions, and the token is exactly the
accession's prefix up to the first space, tab, comma or brace, followed
by an underscore and the 1-based counter of the accession's position in
the sorted deduplicated accession set. -/
theorem sanitize_desanitize_roundtrip (accs : List Str) (A : Str) (hA : A ∈ accs) :
    (∃ t, lookupLeft (buildSanitizer accs) A = some t ∧
       lookupRight (buildSanitizer accs) t = some A) ∧
    (∀ B ∈ accs,
       lookupLeft (buildSanitizer accs) A = lookupLeft (buildSanitizer accs) B →
       A = B) ∧
    (∃ i, ∃ hi : i < (setOfList accs).length,
       A = (setOfList accs)[i] ∧
       lookupLeft (buildSanitizer accs) A = some (sanToken A (i + 1))) := by
  have hnd := setOfList_nodup accs
  have hS : A ∈ setOfList accs := (mem_setOfList A accs).2 hA
  obtain ⟨i, hi, hget⟩ := List.mem_iff_getElem.1 hS
  have hL := lookupLeft_sanitizeAux (setOfList accs) 1 hnd i hi
  have hR := lookupRight_sanitizeAux (setOfList accs) 1 i hi
  rw [hget] at hL hR
  have hcomm : 1 + i = i + 1 := by omega
  rw [hcomm] at hL hR
  refine ⟨⟨sanToken A (i + 1), ?_, ?_⟩, ?_, ⟨i, hi, hget.symm, ?_⟩⟩
  · rw [buildSanitizer]; exact hL
  · rw [buildSanitizer]; exact hR
  · intro B hB hEq
    have hSB : B ∈ setOfList accs := (mem_setOfList B accs).2 hB
    obtain ⟨j, hj, hgetB⟩ := List.mem_iff_getElem.1 hSB
    have hLB := lookupLeft_sanitizeAux (setOfList accs) 1 hnd j hj
    rw [hgetB] at hLB
    rw [buildSanitizer] at hEq
    rw [hL, hLB] at hEq
    have htok := Option.some.inj hEq
    have hctr := sanToken_inj_counter A B (i + 1) (1 + j) htok
    have hij : i = j := by omega
    subst hij
    rw [← hget, ← hgetB]
  · rw [buildSanitizer]; exact hL

/-- Witness for the C2 theorem at a concrete accession set. -/
theorem sanitize_desanitize_roundtrip_witness :
    (∃ t, lookupLeft (buildSanitizer ["B X".data, "A".data]) "B X".data = some t ∧
       lookupRight (buildSanitizer ["B X".data, "A".data]) t = some "B X".data) ∧
    (∀ B ∈ ["B X".data, "A".data],
       lookupLeft (buildSanitizer ["B X".data, "A".data]) "B X".data
         = lookupLeft (buildSanitizer ["B X".data, "A".data]) B →
       "B X".data = B) ∧
    (∃ i, ∃ hi : i < (setOfList ["B X".data, "A".data]).length,
       "B X".data = (setOfList ["B X".data, "A".data])[i] ∧
       lookupLeft (buildSanitizer ["B X".data, "A".data]) "B X".data
         = some (sanToken "B X".data (i + 1))) :=
  sanitize_desanitize_roundtrip ["B X".data, "A".data] "B X".data (by decide)

theorem rLinesFor_ok (m : List (Str × Str)) :
    ∀ accs : List Str,
      (∀ a ∈ accs, a.isEmpty = false → (lookupLeft m a).isSome = true) →
      ∃ ls, rLinesFor m accs = .ok ls
  | [], _ => ⟨[], rfl⟩
  | a :: as, hlook => by
    simp only [rLinesFor]
    by_cases he : a.isEmpty = true
    · rw [if_pos he]
      exact rLinesFor_ok m as (fun x hx hxe => hlook x (by simp [hx]) hxe)
    · rw [if_neg he]
      have hs := hlook a (by simp) (by simpa using he)
      obtain ⟨t, ht⟩ := Option.isSome_iff_exists.1 hs
      rw [ht]
      obtain ⟨ls, hls⟩ := rLinesFor_ok m as (fun x hx hxe => hlook x (by simp [hx]) hxe)
      rw [hls]
      exact ⟨GraphLine.rLine t :: ls, rfl⟩

/-- C3: when score resolution yields the resolved score s with no
resolution error and the hit's accessions are all registered, encoding
of the hit succeeds exactly when 0 is at most s and s is at most 1, and
an out-of-range score raises the hard unsuitable-score error whose
reason names the violated bound. -/
theorem score_range_validation (m : List (Str × Str)) (probParam : Str)
    (pid : PeptideIdentification) (h : PeptideHit) (s : ℚ) (conv : Bool)
    (hres : resolveScore probParam pid h = (s, conv, none))
    (hlook : ∀ a ∈ extractAccessions h, a.isEmpty = false →
      (lookupLeft m a).isSome = true) :
    ((∃ r, encodeHit m probParam pid h = .ok r) ↔ (0 ≤ s ∧ s ≤ 1)) ∧
    (s < 0 →
      encodeHit m probParam pid h = .error (.unsuitableScore "score < 0".data)) ∧
    (1 < s →
      encodeHit m probParam pid h = .error (.unsuitableScore "score > 1".data)) := by
  have hmain : encodeHit m probParam pid h =
      (match finalReason s none with
       | some reason => .error (.unsuitableScore reason)
       | none =>
         (rLinesFor m (extractAccessions h)).map (fun rls =>
           (GraphLine.eLine h.sequence :: rls ++ [GraphLine.pLine s], conv))) := by
    rw [encodeHit, hres]
  refine ⟨⟨?_, ?_⟩, ?_, ?_⟩
  · rintro ⟨r, hr⟩
    rw [hmain] at hr
    by_cases h0 : s < 0
    · simp [finalReason, h0] at hr
    · by_cases h1 : 1 < s
      · simp [finalReason, h0, h1] at hr
      · exact ⟨le_of_not_lt h0, le_of_not_lt h1⟩
  · rintro ⟨h0, h1⟩
    rw [hmain]
    have hfr : finalReason s none = none := by
      simp [finalReason, not_lt.2 h0, not_lt.2 h1]
    rw [hfr]
    obtain ⟨ls, hls⟩ := rLinesFor_ok m (extractAccessions h) hlook
    rw [hls]
    exact ⟨_, rfl⟩
  · intro h0
    rw [hmain]
    simp [finalReason, h0]
  · intro h1
    rw [hmain]
    have h0 : ¬s < 0 := by linarith
    simp [finalReason, h0, h1]

/-- Witness for the C3 theorem at a concrete in-range hit. -/
theorem score_range_validation_witness :
    ((∃ r, encodeHit (buildSanitizer ["AA".data]) []
        ⟨"run1".data, "XCorr".data, true, [⟨"PEPT".data, 1/2, [], ["AA".data]⟩]⟩
        ⟨"PEPT".data, 1/2, [], ["AA".data]⟩ = .ok r) ↔
      ((0 : ℚ) ≤ 1/2 ∧ (1 : ℚ)/2 ≤ 1)) ∧
    ((1 : ℚ)/2 < 0 →
      encodeHit (buildSanitizer ["AA".data]) []
        ⟨"run1".data, "XCorr".data, true, [⟨"PEPT".data, 1/2, [], ["AA".data]⟩]⟩
        ⟨"PEPT".data, 1/2, [], ["AA".data]⟩
        = .error (.unsuitableScore "score < 0".data)) ∧
    ((1 : ℚ) < 1/2 →
      encodeHit (buildSanitizer ["AA".data]) []
        ⟨"run1".data, "XCorr".data, true, [⟨"PEPT".data, 1/2, [], ["AA".data]⟩]⟩
        ⟨"PEPT".data, 1/2, [], ["AA".data]⟩
        = .error (.unsuitableScore "score > 1".data)) :=
  score_range_validation (buildSanitizer ["AA".data]) []
    ⟨"run1".data, "XCorr".data, true, [⟨"PEPT".data, 1/2, [], ["AA".data]⟩]⟩
    ⟨"PEPT".data, 1/2, [], ["AA".data]⟩ (1/2) false rfl (by decide)

/-- C8: the separate-runs loop attempts every run regardless of earlier
outcomes, and the overall flag it reports equals the outcome of the last
run attempted (false when there are no runs); in particular the flag is
not the conjunction of all outcomes. -/
theorem separate_loop_last_outcome :
    (∀ outcomes : List Bool,
       separateLoop outcomes = (outcomes.getLastD false, outcomes.length)) ∧
    (∃ outcomes : List Bool,
       (separateLoop outcomes).1 = true ∧ outcomes.all id = false) := by
  constructor
  · intro outcomes
    suffices h : ∀ (l : List Bool) (st : Bool × Nat),
        l.foldl (fun st2 b => (b, st2.2 + 1)) st = (l.getLastD st.1, st.2 + l.length) by
      have h0 := h outcomes (false, 0)
      simpa [separateLoop] using h0
    intro l
    induction l with
    | nil => intro st; simp
    | cons b bs ih =>
      intro st
      rw [List.foldl_cons, ih (b, st.2 + 1), List.getLastD_cons]
      simp
      omega
  · exact ⟨[false, true], by decide, by decide⟩

theorem buildHitMap_eq (runs : List ProteinIdentification) :
    buildHitMap runs = (runs.flatMap (fun r => r.hits)).foldr
      (fun h mp => mapInsert h.accession h mp) [] := by
  suffices haux : ∀ (rs : List ProteinIdentification) (mp : List (Str × ProteinHit)),
      rs.reverse.foldl
        (fun m r => r.hits.reverse.foldl (fun m2 h2 => mapInsert h2.accession h2 m2) m) mp
        = (rs.flatMap (fun r => r.hits)).foldr (fun h2 m => mapInsert h2.accession h2 m) mp by
    exact haux runs []
  intro rs
  induction rs with
  | nil => intro mp; simp
  | cons r rest ih =>
    intro mp
    simp only [List.reverse_cons, List.foldl_append, List.flatMap_cons, List.foldr_append,
      List.foldl_cons, List.foldl_nil]
    rw [ih]
    simp [List.foldl_reverse]

theorem mapLookup_hitFold (a : Str) :
    ∀ hs : List ProteinHit,
      mapLookup (hs.foldr (fun h mp => mapInsert h.accession h mp) []) a
        = hs.find? (fun h => h.accession == a)
  | [] => rfl
  | h :: rest => by
    simp only [List.foldr_cons]
    rw [mapLookup_mapInsert]
    by_cases hacc : a = h.accession
    · rw [if_pos hacc]
      rw [List.find?_cons_of_pos _ (by simp [hacc])]
    · rw [if_neg hacc]
      rw [List.find?_cons_of_neg _ (by simp; exact fun hh => hacc hh.symm)]
      exact mapLookup_hitFold a rest

theorem pairwise_hitFold :
    ∀ hs : List ProteinHit,
      List.Pairwise (fun p q => strLtB p.1 q.1 = true)
        (hs.foldr (fun h mp => mapInsert h.accession h mp) [])
  | [] => List.Pairwise.nil
  | h :: rest => pairwise_mapInsert _ _ _ (pairwise_hitFold rest)

theorem mem_hitFold :
    ∀ (hs : List ProteinHit) (p : Str × ProteinHit),
      p ∈ hs.foldr (fun h mp => mapInsert h.accession h mp) [] →
      p.2.accession = p.1
  | [], p, hp => by simp at hp
  | h :: rest, p, hp => by
    simp only [List.foldr_cons] at hp
    rcases mem_mapInsert _ _ _ p hp with rfl | hp2
    · rfl
    · exact mem_hitFold rest p hp2

/-- C4: the pooled merge's accession-keyed hit map holds, for every
accession, exactly the first hit carrying that accession in forward run
and hit order; its entries are strictly ascending by accession (hence at
most one hit per accession), each stored hit carries its key accession,
and consequently the synthesized run's hits are inserted in ascending
accession order. -/
theorem pooled_merge_first_wins (runs : List ProteinIdentification) :
    (∀ a : Str, mapLookup (buildHitMap runs) a
       = (runs.flatMap (fun r => r.hits)).find? (fun h => h.accession == a)) ∧
    List.Pairwise (fun p q => strLtB p.1 q.1 = true) (buildHitMap runs) ∧
    (∀ p ∈ buildHitMap runs, p.2.accession = p.1) ∧
    List.Pairwise (fun h1 h2 => strLtB h1.accession h2.accession = true)
      (mergedHits runs) := by
  have hmemacc : ∀ p ∈ buildHitMap runs, p.2.accession = p.1 := by
    rw [buildHitMap_eq]
    exact fun p hp => mem_hitFold _ p hp
  refine ⟨?_, ?_, hmemacc, ?_⟩
  · rw [buildHitMap_eq]
    exact fun a => mapLookup_hitFold a _
  · rw [buildHitMap_eq]
    exact pairwise_hitFold _
  · have hpw : List.Pairwise (fun p q => strLtB p.1 q.1 = true) (buildHitMap runs) := by
      rw [buildHitMap_eq]; exact pairwise_hitFold _
    rw [mergedHits, List.pairwise_map]
    refine List.Pairwise.imp_of_mem ?_ hpw
    intro p q hp hq hlt
    rw [hmemacc p hp, hmemacc q hq]
    exact hlt

theorem strLeB_total (a b : Str) : strLeB a b = true ∨ strLeB b a = true := by
  by_cases h : strLtB b a = true
  · right
    simp only [strLeB, Bool.not_eq_true']
    exact strLtB_asymm b a h
  · left
    simp only [strLeB, Bool.not_eq_true']
    simpa using h

theorem strLeB_trans (a b c : Str) (h1 : strLeB a b = true)
    (h2 : strLeB b c = true) : strLeB a c = true := by
  simp only [strLeB, Bool.not_eq_true'] at h1 h2 ⊢
  by_cases hca : strLtB c a = true
  · by_cases hbc : strLtB b c = true
    · have := strLtB_trans b c a hbc hca
      rw [h1] at this
      exact absurd this (by simp)
    · have heq : b = c := strLtB_conn b c (by simpa using hbc) h2
      rw [← heq] at hca
      rw [h1] at hca
      exact absurd hca (by simp)
  · simpa using hca

theorem groupLtB_irrefl (g : ProteinGroup) : groupLtB g g = false := by
  simp only [groupLtB]
  rw [if_neg (lt_irrefl _), if_neg (lt_irrefl _)]
  exact lexLtB_irrefl strLtB strLtB_irrefl g.accessions

theorem groupLtB_trans (a b c : ProteinGroup) (h1 : groupLtB a b = true)
    (h2 : groupLtB b c = true) : groupLtB a c = true := by
  simp only [groupLtB] at h1 h2 ⊢
  by_cases hab : a.probability < b.probability
  · by_cases hbc : b.probability < c.probability
    · rw [if_pos (lt_trans hab hbc)]
    · rw [if_neg hbc] at h2
      by_cases hcb : c.probability < b.probability
      · rw [if_pos hcb] at h2
        exact absurd h2 (by simp)
      · have heq : b.probability = c.probability :=
          le_antisymm (le_of_not_lt hcb) (le_of_not_lt hbc)
        rw [if_pos (by rw [← heq]; exact hab)]
  · rw [if_neg hab] at h1
    by_cases hba : b.probability < a.probability
    · rw [if_pos hba] at h1
      exact absurd h1 (by simp)
    · rw [if_neg hba] at h1
      have heq : a.probability = b.probability :=
        le_antisymm (le_of_not_lt hba) (le_of_not_lt hab)
      by_cases hbc : b.probability < c.probability
      · rw [if_pos (by rw [heq]; exact hbc)]
      · rw [if_neg hbc] at h2
        by_cases hcb : c.probability < b.probability
        · rw [if_pos hcb] at h2
          exact absurd h2 (by simp)
        · rw [if_neg hcb] at h2
          have heq2 : b.probability = c.probability :=
            le_antisymm (le_of_not_lt hcb) (le_of_not_lt hbc)
          rw [if_neg (by rw [heq, heq2]; exact lt_irrefl _),
              if_neg (by rw [heq, heq2]; exact lt_irrefl _)]
          exact lexLtB_trans strLtB strLtB_irrefl strLtB_trans strLtB_conn _ _ _ h1 h2

theorem groupLtB_conn (a b : ProteinGroup) (h1 : groupLtB a b = false)
    (h2 : groupLtB b a = false) : a = b := by
  simp only [groupLtB] at h1 h2
  by_cases hab : a.probability < b.probability
  · rw [if_pos hab] at h1
    exact absurd h1 (by simp)
  · rw [if_neg hab] at h1
    by_cases hba : b.probability < a.probability
    · rw [if_pos hba] at h2
      exact absurd h2 (by simp)
    · rw [if_neg hba] at h1
      rw [if_neg hba, if_neg hab] at h2
      have heqp : a.probability = b.probability :=
        le_antisymm (le_of_not_lt hba) (le_of_not_lt hab)
      have heqa : a.accessions = b.accessions :=
        lexLtB_conn strLtB strLtB_conn _ _ h1 h2
      obtain ⟨pa, aa⟩ := a
      obtain ⟨pb, ab⟩ := b
      simp only at heqp heqa
      rw [heqp, heqa]

theorem groupLeB_total (a b : ProteinGroup) :
    groupLeB a b = true ∨ groupLeB b a = true := by
  by_cases h : groupLtB b a = true
  · right
    simp only [groupLeB, Bool.not_eq_true']
    by_cases h2 : groupLtB a b = true
    · exact absurd (groupLtB_trans b a b h h2) (by rw [groupLtB_irrefl]; simp)
    · simpa using h2
  · left
    simp only [groupLeB, Bool.not_eq_true']
    simpa using h

theorem groupLeB_trans (a b c : ProteinGroup) (h1 : groupLeB a b = true)
    (h2 : groupLeB b c = true) : groupLeB a c = true := by
  simp only [groupLeB, Bool.not_eq_true'] at h1 h2 ⊢
  by_cases hca : groupLtB c a = true
  · by_cases hbc : groupLtB b c = true
    · have := groupLtB_trans b c a hbc hca
      rw [h1] at this
      exact absurd this (by simp)
    · have heq : b = c := groupLtB_conn b c (by simpa using hbc) h2
      rw [← heq] at hca
      rw [h1] at hca
      exact absurd hca (by simp)
  · simpa using hca

theorem decodeToks_spec (m : List (Str × Str)) (keep : Bool) (prob : ℚ) :
    ∀ toks : List Str,
      (∀ t ∈ toks, 1 < t.length → ∃ a, lookupRight m t = some a) →
      ∃ accs zp, decodeToks m keep prob toks = .ok (accs, zp) ∧
        zp = (if prob = 0 then
          (toks.filter (fun t => decide (1 < t.length))).length else 0) ∧
        accs = (if prob = 0 ∧ keep = false then ([] : List Str)
          else (toks.filter (fun t => decide (1 < t.length))).filterMap
            (lookupRight m))
  | [], _ => by
    refine ⟨[], 0, rfl, by simp, by simp⟩
  | t :: ts, hreg => by
    obtain ⟨accs, zp, hok, hzp, haccs⟩ :=
      decodeToks_spec m keep prob ts (fun x hx => hreg x (by simp [hx]))
    by_cases hlen : t.length ≤ 1
    · have hfilt : (t :: ts).filter (fun t2 => decide (1 < t2.length))
          = ts.filter (fun t2 => decide (1 < t2.length)) := by
        rw [List.filter_cons_of_neg (by simpa using hlen)]
      refine ⟨accs, zp, ?_, by rw [hfilt]; exact hzp, by rw [hfilt]; exact haccs⟩
      simp only [decodeToks]
      rw [if_pos hlen]
      exact hok
    · have hbig : 1 < t.length := by omega
      obtain ⟨a, ha⟩ := hreg t (by simp) hbig
      have hfilt : (t :: ts).filter (fun t2 => decide (1 < t2.length))
          = t :: ts.filter (fun t2 => decide (1 < t2.length)) := by
        rw [List.filter_cons_of_pos (by simpa using hbig)]
      by_cases hp : prob = 0
      · by_cases hk : keep = true
        · refine ⟨a :: accs, zp + 1, ?_, ?_, ?_⟩
          · simp only [decodeToks]
            rw [if_neg hlen, if_pos hp, if_pos hk, ha, hok]
            rfl
          · rw [hfilt, if_pos hp]
            rw [if_pos hp] at hzp
            simp [hzp]
          · rw [hfilt]
            rw [if_neg (by simp [hk]), List.filterMap_cons_some ha]
            rw [if_neg (by simp [hk])] at haccs
            rw [haccs]
        · have hk2 : keep = false := by simpa using hk
          refine ⟨accs, zp + 1, ?_, ?_, ?_⟩
          · simp only [decodeToks]
            rw [if_neg hlen, if_pos hp, if_neg (by simp [hk2]), hok]
            rfl
          · rw [hfilt, if_pos hp]
            rw [if_pos hp] at hzp
            simp [hzp]
          · rw [if_pos ⟨hp, hk2⟩]
            rw [if_pos ⟨hp, hk2⟩] at haccs
            exact haccs
      · refine ⟨a :: accs, zp, ?_, ?_, ?_⟩
        · simp only [decodeToks]
          rw [if_neg hlen, if_neg hp, ha, hok]
          rfl
        · rw [if_neg hp]
          rw [if_neg hp] at hzp
          exact hzp
        · rw [if_neg (by simp [hp]), hfilt, List.filterMap_cons_some ha]
          rw [if_neg (by simp [hp])] at haccs
          rw [haccs]

theorem decodeLines_spec (m : List (Str × Str)) (keep : Bool) :
    ∀ lines : List (ℚ × List Str),
      (∀ pl ∈ lines, ∀ t ∈ pl.2, 1 < t.length → ∃ a, lookupRight m t = some a) →
      ∃ gs pc zps, decodeLines m keep lines = .ok (gs, pc, zps) ∧
        zps = (lines.map (fun pl =>
          if pl.1 = 0 then
            (pl.2.filter (fun t => decide (1 < t.length))).length else 0)).sum ∧
        (keep = false → ∀ g ∈ gs, g.probability ≠ 0) ∧
        (keep = true → ∀ pl ∈ lines, pl.1 = 0 →
          (pl.2.filter (fun t => decide (1 < t.length))).filterMap (lookupRight m) ≠ [] →
          ProteinGroup.mk 0 (sortBy strLeB
            ((pl.2.filter (fun t => decide (1 < t.length))).filterMap (lookupRight m)))
            ∈ gs) ∧
        (∀ g ∈ gs, List.Pairwise (fun x y => strLeB x y = true) g.accessions)
  | [], _ => ⟨[], 0, 0, rfl, by simp, by simp, by simp, by simp⟩
  | (prob, toks) :: rest, hreg => by
    obtain ⟨accs, zp, htok, hzp, haccs⟩ :=
      decodeToks_spec m keep prob toks (fun t ht => hreg (prob, toks) (by simp) t ht)
    obtain ⟨gs, pc, zps, hok, hzps, hnozero, hkeep, hsorted⟩ :=
      decodeLines_spec m keep rest (fun pl hpl => hreg pl (by simp [hpl]))
    by_cases hemp : accs.isEmpty = true
    · have haccs0 : accs = [] := by simpa [List.isEmpty_iff] using hemp
      refine ⟨gs, pc, zps + zp, ?_, ?_, hnozero, ?_, hsorted⟩
      · simp only [decodeLines, htok, hok]
        rw [if_pos hemp]
      · simp only [List.map_cons, List.sum_cons]
        omega
      · intro hk pl hpl hpl0 hne
        rcases List.mem_cons.1 hpl with rfl | hpl2
        · exfalso
          rw [haccs0] at haccs
          rw [if_neg (by simp [hk])] at haccs
          exact hne haccs.symm
        · exact hkeep hk pl hpl2 hpl0 hne
    · refine ⟨⟨prob, sortBy strLeB accs⟩ :: gs, pc + accs.length, zps + zp,
        ?_, ?_, ?_, ?_, ?_⟩
      · simp only [decodeLines, htok, hok]
        rw [if_neg hemp]
      · simp only [List.map_cons, List.sum_cons]
        omega
      · intro hk g hg
        rcases List.mem_cons.1 hg with rfl | hg2
        · intro hp0
          have hp : prob = 0 := hp0
          rw [if_pos ⟨hp, hk⟩] at haccs
          rw [haccs] at hemp
          simp at hemp
        · exact hnozero hk g hg2
      · intro hk pl hpl hpl0 hne
        rcases List.mem_cons.1 hpl with rfl | hpl2
        · refine List.mem_cons.2 (Or.inl ?_)
          have hp : prob = 0 := hpl0
          rw [if_neg (by simp [hk])] at haccs
          rw [hp, haccs]
        · exact List.mem_cons_of_mem _ (hkeep hk pl hpl2 hpl0 hne)
      · intro g hg
        rcases List.mem_cons.1 hg with rfl | hg2
        · exact pairwise_sortBy strLeB strLeB_total strLeB_trans accs
        · exact hsorted g hg2

/-- C5: decoding with the zero-probability policy. With retention off,
every zero-probability group's accessions are dropped, so no output
group has probability zero, and the zero-probability counter equals the
number of accession tokens (length above one) listed on zero-probability
lines. With retention on, the same zero-probability groups appear in the
output with all their accessions (de-sanitized and sorted), and the
counter is the same. -/
theorem zero_probability_policy (m : List (Str × Str)) (lines : List (ℚ × List Str))
    (hreg : ∀ pl ∈ lines, ∀ t ∈ pl.2, 1 < t.length →
      (lookupRight m t).isSome = true) :
    (∃ gs pc zps, decodeFidoOutput m false lines = .ok (gs, pc, zps) ∧
       zps = (lines.map (fun pl => if pl.1 = 0 then
         (pl.2.filter (fun t => decide (1 < t.length))).length else 0)).sum ∧
       ∀ g ∈ gs, g.probability ≠ 0) ∧
    (∃ gs pc zps, decodeFidoOutput m true lines = .ok (gs, pc, zps) ∧
       zps = (lines.map (fun pl => if pl.1 = 0 then
         (pl.2.filter (fun t => decide (1 < t.length))).length else 0)).sum ∧
       ∀ pl ∈ lines, pl.1 = 0 →
         (pl.2.filter (fun t => decide (1 < t.length))).filterMap (lookupRight m) ≠ [] →
         ProteinGroup.mk 0 (sortBy strLeB
           ((pl.2.filter (fun t => decide (1 < t.length))).filterMap (lookupRight m)))
           ∈ gs) := by
  have hreg2 : ∀ pl ∈ lines, ∀ t ∈ pl.2, 1 < t.length →
      ∃ a, lookupRight m t = some a :=
    fun pl hpl t ht hlen => Option.isSome_iff_exists.1 (hreg pl hpl t ht hlen)
  constructor
  · obtain ⟨gs, pc, zps, hok, hzps, hnz, _, _⟩ := decodeLines_spec m false lines hreg2
    refine ⟨sortBy groupLeB gs, pc, zps, ?_, hzps, ?_⟩
    · rw [decodeFidoOutput, hok]
      rfl
    · intro g hg
      exact hnz rfl g ((mem_sortBy groupLeB gs g).1 hg)
  · obtain ⟨gs, pc, zps, hok, hzps, _, hk, _⟩ := decodeLines_spec m true lines hreg2
    refine ⟨sortBy groupLeB gs, pc, zps, ?_, hzps, ?_⟩
    · rw [decodeFidoOutput, hok]
      rfl
    · intro pl hpl hpl0 hne
      exact (mem_sortBy groupLeB gs _).2 (hk rfl pl hpl hpl0 hne)

/-- Witness for the C5 theorem at a concrete decoder input. -/
theorem zero_probability_policy_witness :
    (∃ gs pc zps, decodeFidoOutput (buildSanitizer ["AA".data, "BB".data]) false
        [((0 : ℚ), [['{'], "AA_1".data, [','], "BB_2".data, ['}']]),
         ((1 : ℚ), ["BB_2".data])] = .ok (gs, pc, zps) ∧
       zps = ([((0 : ℚ), [['{'], "AA_1".data, [','], "BB_2".data, ['}']]),
         ((1 : ℚ), ["BB_2".data])].map (fun pl => if pl.1 = 0 then
           (pl.2.filter (fun t => decide (1 < t.length))).length else 0)).sum ∧
       ∀ g ∈ gs, g.probability ≠ 0) ∧
    (∃ gs pc zps, decodeFidoOutput (buildSanitizer ["AA".data, "BB".data]) true
        [((0 : ℚ), [['{'], "AA_1".data, [','], "BB_2".data, ['}']]),
         ((1 : ℚ), ["BB_2".data])] = .ok (gs, pc, zps) ∧
       zps = ([((0 : ℚ), [['{'], "AA_1".data, [','], "BB_2".data, ['}']]),
         ((1 : ℚ), ["BB_2".data])].map (fun pl => if pl.1 = 0 then
           (pl.2.filter (fun t => decide (1 < t.length))).length else 0)).sum ∧
       ∀ pl ∈ [((0 : ℚ), [['{'], "AA_1".data, [','], "BB_2".data, ['}']]),
         ((1 : ℚ), ["BB_2".data])], pl.1 = 0 →
         (pl.2.filter (fun t => decide (1 < t.length))).filterMap
           (lookupRight (buildSanitizer ["AA".data, "BB".data])) ≠ [] →
         ProteinGroup.mk 0 (sortBy strLeB
           ((pl.2.filter (fun t => decide (1 < t.length))).filterMap
             (lookupRight (buildSanitizer ["AA".data, "BB".data]))))
           ∈ gs) :=
  zero_probability_policy (buildSanitizer ["AA".data, "BB".data])
    [((0 : ℚ), [['{'], "AA_1".data, [','], "BB_2".data, ['}']]),
     ((1 : ℚ), ["BB_2".data])] (by decide)

/-- C6: the decoded group list attached to a run is totally ordered:
pairwise in the non-strict group order (ascending probability, ties
broken by lexicographic accession-list comparison), and within every
group the accessions are pairwise in the non-strict string order. -/
theorem group_ordering (m : List (Str × Str)) (keep : Bool)
    (lines : List (ℚ × List Str))
    (hreg : ∀ pl ∈ lines, ∀ t ∈ pl.2, 1 < t.length →
      (lookupRight m t).isSome = true) :
    ∃ gs pc zps, decodeFidoOutput m keep lines = .ok (gs, pc, zps) ∧
      List.Pairwise (fun g1 g2 => groupLeB g1 g2 = true) gs ∧
      ∀ g ∈ gs, List.Pairwise (fun x y => strLeB x y = true) g.accessions := by
  have hreg2 : ∀ pl ∈ lines, ∀ t ∈ pl.2, 1 < t.length →
      ∃ a, lookupRight m t = some a :=
    fun pl hpl t ht hlen => Option.isSome_iff_exists.1 (hreg pl hpl t ht hlen)
  obtain ⟨gs, pc, zps, hok, _, _, _, hsort⟩ := decodeLines_spec m keep lines hreg2
  refine ⟨sortBy groupLeB gs, pc, zps, ?_, ?_, ?_⟩
  · rw [decodeFidoOutput, hok]
    rfl
  · exact pairwise_sortBy groupLeB groupLeB_total groupLeB_trans gs
  · intro g hg
    exact hsort g ((mem_sortBy groupLeB gs g).1 hg)

/-- Witness for the C6 theorem at a concrete decoder input. -/
theorem group_ordering_witness :
    ∃ gs pc zps, decodeFidoOutput (buildSanitizer ["AA".data, "BB".data]) true
        [((1 : ℚ), ["BB_2".data, "AA_1".data]), ((0 : ℚ), ["AA_1".data])]
        = .ok (gs, pc, zps) ∧
      List.Pairwise (fun g1 g2 => groupLeB g1 g2 = true) gs ∧
      ∀ g ∈ gs, List.Pairwise (fun x y => strLeB x y = true) g.accessions :=
  group_ordering (buildSanitizer ["AA".data, "BB".data]) true
    [((1 : ℚ), ["BB_2".data, "AA_1".data]), ((0 : ℚ), ["AA_1".data])] (by decide)

theorem rLinesFor_mem (m : List (Str × Str)) :
    ∀ (accs : List Str) (ls : List GraphLine), rLinesFor m accs = .ok ls →
      ∀ l ∈ ls, ∃ t, l = GraphLine.rLine t
  | [], ls, hok => by
    intro l hl
    simp only [rLinesFor] at hok
    cases hok
    simp at hl
  | a :: as, ls, hok => by
    intro l hl
    simp only [rLinesFor] at hok
    by_cases he : a.isEmpty = true
    · rw [if_pos he] at hok
      exact rLinesFor_mem m as ls hok l hl
    · rw [if_neg he] at hok
      cases hfind : lookupLeft m a with
      | none => rw [hfind] at hok; cases hok
      | some t =>
        rw [hfind] at hok
        cases hrec : rLinesFor m as with
        | error e => rw [hrec] at hok; cases hok
        | ok ls2 =>
          rw [hrec] at hok
          cases hok
          rcases List.mem_cons.1 hl with rfl | hl2
          · exact ⟨t, rfl⟩
          · exact rLinesFor_mem m as ls2 hrec l hl2

theorem encodePep_skip (m : List (Str × Str)) (pp fid : Str)
    (pid : PeptideIdentification) (warned : Bool)
    (hsel : pepSelected fid pid = false) :
    encodePep m pp fid pid warned = .ok ([], warned, false) := by
  rw [pepSelected] at hsel
  rw [encodePep]
  by_cases hc1 : ((!fid.isEmpty && pid.identifier != fid) || pid.hits.isEmpty) = true
  · rw [if_pos hc1]
  · rw [if_neg hc1]
    have hc1f : ((!fid.isEmpty && pid.identifier != fid) || pid.hits.isEmpty) = false := by
      revert hc1
      cases (!fid.isEmpty && pid.identifier != fid) || pid.hits.isEmpty <;> simp
    rw [hc1f] at hsel
    simp only [Bool.not_false, Bool.true_and] at hsel
    cases hsh : sortHits pid with
    | nil => rfl
    | cons h tl =>
      rw [hsh] at hsel
      have hsel2 : (!h.sequence.isEmpty && !(extractAccessions h).isEmpty) = false := by
        simpa using hsel
      have hor : (h.sequence.isEmpty || (extractAccessions h).isEmpty) = true := by
        revert hsel2
        cases h.sequence.isEmpty <;> cases (extractAccessions h).isEmpty <;> simp
      simp [hor]

theorem encodePep_conv (m : List (Str × Str)) (pp fid : Str)
    (pid : PeptideIdentification) (warned : Bool)
    (hsel : pepSelected fid pid = true)
    (hhsb : pid.higherScoreBetter = false)
    (hst : (toLowerStr pid.scoreType == "posterior error probability".data
       || "consensus_".data.isPrefixOf (toLowerStr pid.scoreType)) = true)
    (hmeta : ∀ h ∈ pid.hits, findMeta h.metaValues pp = none)
    (hrange : ∀ h ∈ pid.hits, 0 ≤ h.score ∧ h.score ≤ 1)
    (hlook : ∀ h ∈ pid.hits, ∀ a ∈ extractAccessions h, a.isEmpty = false →
       (lookupLeft m a).isSome = true) :
    ∃ ls h, h ∈ pid.hits ∧
      encodePep m pp fid pid warned = .ok (ls, true, !warned) ∧
      ∀ q, GraphLine.pLine q ∈ ls → q = 1 - h.score := by
  rw [pepSelected] at hsel
  rcases Bool.and_eq_true_iff.1 hsel with ⟨hc1, hc2⟩
  have hc1f : ((!fid.isEmpty && pid.identifier != fid) || pid.hits.isEmpty) = false := by
    revert hc1
    cases (!fid.isEmpty && pid.identifier != fid) || pid.hits.isEmpty <;> simp
  cases hsh : sortHits pid with
  | nil => rw [hsh] at hc2; cases hc2
  | cons h tl =>
    rw [hsh] at hc2
    have hc2b : (!h.sequence.isEmpty && !(extractAccessions h).isEmpty) = true := by
      simpa using hc2
    rcases Bool.and_eq_true_iff.1 hc2b with ⟨hseq, haccs⟩
    have hseqf : h.sequence.isEmpty = false := by
      revert hseq
      cases h.sequence.isEmpty <;> simp
    have haccf : (extractAccessions h).isEmpty = false := by
      revert haccs
      cases (extractAccessions h).isEmpty <;> simp
    have hmem : h ∈ pid.hits := by
      have hm2 : h ∈ sortHits pid := by rw [hsh]; simp
      rw [sortHits] at hm2
      exact (mem_sortBy _ _ _).1 hm2
    have hres : resolveScore pp pid h = (1 - h.score, true, none) := by
      rw [resolveScore]
      have hnometa : (if pp.isEmpty then none else findMeta h.metaValues pp) = none := by
        by_cases hppe : pp.isEmpty = true
        · rw [if_pos hppe]
        · rw [if_neg hppe]
          exact hmeta h hmem
      rw [hnometa, hhsb]
      simp only [Bool.false_eq_true, if_false]
      rw [if_pos hst]
    have hfr : finalReason (1 - h.score) none = none := by
      rcases hrange h hmem with ⟨h0, h1⟩
      rw [finalReason]
      rw [if_neg (by linarith), if_neg (by linarith)]
    obtain ⟨rls, hrls⟩ := rLinesFor_ok m (extractAccessions h) (hlook h hmem)
    refine ⟨GraphLine.eLine h.sequence :: rls ++ [GraphLine.pLine (1 - h.score)],
      h, hmem, ?_, ?_⟩
    · rw [encodePep]
      rw [if_neg (by rw [hc1f]; simp)]
      simp only [hsh]
      rw [if_neg (by rw [hseqf, haccf]; simp)]
      simp only [encodeHit, hres, hfr, hrls]
      simp [Except.map]
    · intro q hq
      rcases List.mem_cons.1 hq with heq | hq2
      · cases heq
      · rcases List.mem_append.1 hq2 with hq3 | hq4
        · obtain ⟨t, ht⟩ := rLinesFor_mem m (extractAccessions h) rls hrls _ hq3
          cases ht
        · rcases List.mem_singleton.1 hq4 with heq
          cases heq
          rfl

theorem writePSMGraphAux_conv (m : List (Str × Str)) (pp fid : Str) :
    ∀ (batch : List PeptideIdentification) (warned : Bool) (wc : Nat),
      (∀ pid ∈ batch, pid.higherScoreBetter = false) →
      (∀ pid ∈ batch, (toLowerStr pid.scoreType == "posterior error probability".data
         || "consensus_".data.isPrefixOf (toLowerStr pid.scoreType)) = true) →
      (∀ pid ∈ batch, ∀ h ∈ pid.hits, findMeta h.metaValues pp = none) →
      (∀ pid ∈ batch, ∀ h ∈ pid.hits, 0 ≤ h.score ∧ h.score ≤ 1) →
      (∀ pid ∈ batch, ∀ h ∈ pid.hits, ∀ a ∈ extractAccessions h, a.isEmpty = false →
         (lookupLeft m a).isSome = true) →
      ∃ lines wc2, writePSMGraphAux m pp fid batch warned wc = .ok (lines, wc2) ∧
        wc2 = wc + (if warned then 0
          else if batch.any (fun pid => pepSelected fid pid) then 1 else 0) ∧
        ∀ q, GraphLine.pLine q ∈ lines →
          ∃ pid ∈ batch, ∃ h ∈ pid.hits, q = 1 - h.score
  | [], warned, wc, _, _, _, _, _ => ⟨[], wc, rfl, by cases warned <;> simp, by simp⟩
  | pid :: rest, warned, wc, h1, h2, h3, h4, h5 => by
    by_cases hsel : pepSelected fid pid = true
    · obtain ⟨ls, hh, hhmem, henc, hpl⟩ := encodePep_conv m pp fid pid warned hsel
        (h1 pid (by simp)) (h2 pid (by simp)) (h3 pid (by simp)) (h4 pid (by simp))
        (h5 pid (by simp))
      obtain ⟨lines, wc2, hok, hwc2, hpl2⟩ := writePSMGraphAux_conv m pp fid rest true
        (wc + if (!warned) = true then 1 else 0)
        (fun p hp => h1 p (by simp [hp])) (fun p hp => h2 p (by simp [hp]))
        (fun p hp => h3 p (by simp [hp])) (fun p hp => h4 p (by simp [hp]))
        (fun p hp => h5 p (by simp [hp]))
      refine ⟨ls ++ lines, wc2, ?_, ?_, ?_⟩
      · simp only [writePSMGraphAux, henc, hok]
        simp [Except.map]
      · rw [hwc2]
        cases warned <;> simp [List.any_cons, hsel]
      · intro q hq
        rcases List.mem_append.1 hq with hq1 | hq2
        · exact ⟨pid, by simp, hh, hhmem, hpl q hq1⟩
        · obtain ⟨p2, hp2, h2x, hh2, he⟩ := hpl2 q hq2
          exact ⟨p2, by simp [hp2], h2x, hh2, he⟩
    · have hself : pepSelected fid pid = false := by simpa using hsel
      have henc := encodePep_skip m pp fid pid warned hself
      obtain ⟨lines, wc2, hok, hwc2, hpl2⟩ := writePSMGraphAux_conv m pp fid rest warned wc
        (fun p hp => h1 p (by simp [hp])) (fun p hp => h2 p (by simp [hp]))
        (fun p hp => h3 p (by simp [hp])) (fun p hp => h4 p (by simp [hp]))
        (fun p hp => h5 p (by simp [hp]))
      refine ⟨lines, wc2, ?_, ?_, ?_⟩
      · simp only [writePSMGraphAux, henc]
        simp only [Bool.false_eq_true, if_false, Nat.add_zero]
        rw [hok]
        simp [Except.map]
      · rw [hwc2]
        simp [List.any_cons, hself]
      · intro q hq
        obtain ⟨p2, hp2, h2x, hh2, he⟩ := hpl2 q hq
        exact ⟨p2, by simp [hp2], h2x, hh2, he⟩

/-- C7: for a batch whose identifications are all lower-is-better with a
posterior-error-probability or consensus score type and no applicable
alternate score field, the graph encoder succeeds, every emitted
probability line carries 1 minus a hit's score, and (when at least one
identification is encoded) exactly one conversion advisory is emitted
for the whole batch. -/
theorem pep_conversion_batch (m : List (Str × Str)) (pp fid : Str)
    (batch : List PeptideIdentification)
    (h1 : ∀ pid ∈ batch, pid.higherScoreBetter = false)
    (h2 : ∀ pid ∈ batch, (toLowerStr pid.scoreType == "posterior error probability".data
       || "consensus_".data.isPrefixOf (toLowerStr pid.scoreType)) = true)
    (h3 : ∀ pid ∈ batch, ∀ h ∈ pid.hits, findMeta h.metaValues pp = none)
    (h4 : ∀ pid ∈ batch, ∀ h ∈ pid.hits, 0 ≤ h.score ∧ h.score ≤ 1)
    (h5 : ∀ pid ∈ batch, ∀ h ∈ pid.hits, ∀ a ∈ extractAccessions h, a.isEmpty = false →
       (lookupLeft m a).isSome = true)
    (hsome : batch.any (fun pid => pepSelected fid pid) = true) :
    ∃ lines, writePSMGraph m pp batch fid = .ok (lines, 1) ∧
      ∀ q, GraphLine.pLine q ∈ lines →
        ∃ pid ∈ batch, ∃ h ∈ pid.hits, q = 1 - h.score := by
  obtain ⟨lines, wc2, hok, hwc2, hpl⟩ :=
    writePSMGraphAux_conv m pp fid batch false 0 h1 h2 h3 h4 h5
  rw [hsome] at hwc2
  have hwc : wc2 = 1 := by rw [hwc2]; simp
  refine ⟨lines, ?_, hpl⟩
  rw [writePSMGraph, hok, hwc]

/-- Witness for the C7 theorem at a concrete two-identification batch. -/
theorem pep_conversion_batch_witness :
    ∃ lines, writePSMGraph (buildSanitizer ["AA".data]) "pp".data
        [⟨"run1".data, "Posterior Error Probability".data, false,
          [⟨"PEPT".data, 0, [], ["AA".data]⟩]⟩,
         ⟨"run1".data, "Posterior Error Probability".data, false,
          [⟨"QEPT".data, 1, [], ["AA".data]⟩]⟩] [] = .ok (lines, 1) ∧
      ∀ q, GraphLine.pLine q ∈ lines →
        ∃ pid ∈ [(⟨"run1".data, "Posterior Error Probability".data, false,
          [⟨"PEPT".data, 0, [], ["AA".data]⟩]⟩ : PeptideIdentification),
         ⟨"run1".data, "Posterior Error Probability".data, false,
          [⟨"QEPT".data, 1, [], ["AA".data]⟩]⟩],
          ∃ h ∈ pid.hits, q = 1 - h.score :=
  pep_conversion_batch (buildSanitizer ["AA".data]) "pp".data []
    [⟨"run1".data, "Posterior Error Probability".data, false,
      [⟨"PEPT".data, 0, [], ["AA".data]⟩]⟩,
     ⟨"run1".data, "Posterior Error Probability".data, false,
      [⟨"QEPT".data, 1, [], ["AA".data]⟩]⟩]
    (by decide) (by decide) (by decide) (by decide) (by decide) (by decide)

theorem writePSMGraphAux_filter (m : List (Str × Str)) (pp fid : Str)
    (hfid : fid ≠ []) :
    ∀ (peptides : List PeptideIdentification) (warned : Bool) (wc : Nat),
      writePSMGraphAux m pp fid peptides warned wc
        = writePSMGraphAux m pp fid
            (peptides.filter (fun p => p.identifier == fid)) warned wc
  | [], _, _ => rfl
  | pid :: rest, warned, wc => by
    by_cases hid : (pid.identifier == fid) = true
    · have hfc : List.filter (fun p => p.identifier == fid) (pid :: rest)
          = pid :: List.filter (fun p => p.identifier == fid) rest := by
        simp [List.filter_cons, hid]
      rw [hfc]
      simp only [writePSMGraphAux]
      cases henc : encodePep m pp fid pid warned with
      | error e => rfl
      | ok r =>
        obtain ⟨ls, w2, em⟩ := r
        dsimp only
        rw [writePSMGraphAux_filter m pp fid hfid rest w2 (wc + if em = true then 1 else 0)]
    · have hfalse : (pid.identifier == fid) = false := by simpa using hid
      rw [List.filter_cons_of_neg (by simp [hfalse])]
      have hskip : encodePep m pp fid pid warned = .ok ([], warned, false) := by
        rw [encodePep]
        rw [if_pos ?hcond]
        case hcond =>
          have hfe : fid.isEmpty = false := by
            cases fid with
            | nil => exact absurd rfl hfid
            | cons c cs => rfl
          rw [hfe]
          simp [bne, hfalse]
      simp only [writePSMGraphAux, hskip]
      simp only [Bool.false_eq_true, if_false, Nat.add_zero]
      rw [writePSMGraphAux_filter m pp fid hfid rest warned wc]
      cases hres : writePSMGraphAux m pp fid
          (rest.filter (fun p => p.identifier == fid)) warned wc <;> simp [Except.map]

theorem writePSMGraph_filter (m : List (Str × Str)) (pp fid : Str)
    (hfid : fid ≠ []) (peptides : List PeptideIdentification) :
    writePSMGraph m pp peptides fid
      = writePSMGraph m pp (peptides.filter (fun p => p.identifier == fid)) fid := by
  rw [writePSMGraph, writePSMGraph, writePSMGraphAux_filter m pp fid hfid]

theorem graphFilePath_inj (tempDir : Str) (i j : Nat) (hi : i ≠ 0) (hj : j ≠ 0)
    (h : graphFilePath tempDir i = graphFilePath tempDir j) : i = j := by
  rw [graphFilePath, graphFilePath, numSuffix, numSuffix, if_neg hi, if_neg hj] at h
  have h3 := List.append_cancel_right h
  have h4 := List.append_cancel_left h3
  injection h4 with h5a h5b
  exact toDigits_inj i j h5b

theorem gatherLists_error_of_unlabeled (m : List (Str × Str)) :
    ∀ (hs : List ProteinHit) (ts ds : List Str),
      (∃ h ∈ hs, h.targetDecoy ≠ "target".data ∧ h.targetDecoy ≠ "decoy".data) →
      ∃ e, gatherLists m hs ts ds = .error e
  | [], _, _, hbad => by
    obtain ⟨h, hh, _⟩ := hbad
    simp at hh
  | h :: rest, ts, ds, hbad => by
    simp only [gatherLists]
    cases hfind : lookupLeft m h.accession with
    | none => exact ⟨.unregisteredAccession h.accession, rfl⟩
    | some tok =>
      dsimp only
      by_cases h1 : (h.targetDecoy == "target".data) = true
      · rw [if_pos h1]
        obtain ⟨h2, hh2, hbad2⟩ := hbad
        rcases List.mem_cons.1 hh2 with rfl | hh3
        · exact absurd (by simpa using h1) hbad2.1
        · exact gatherLists_error_of_unlabeled m rest _ _ ⟨h2, hh3, hbad2⟩
      · rw [if_neg h1]
        by_cases h2 : (h.targetDecoy == "decoy".data) = true
        · rw [if_pos h2]
          obtain ⟨h3, hh3, hbad3⟩ := hbad
          rcases List.mem_cons.1 hh3 with rfl | hh4
          · exact absurd (by simpa using h2) hbad3.2
          · exact gatherLists_error_of_unlabeled m rest _ _ ⟨h3, hh4, hbad3⟩
        · rw [if_neg h2]
          exact ⟨.missingTargetDecoy, rfl⟩

theorem writeProteinLists_error_of_unlabeled (m : List (Str × Str))
    (run : ProteinIdentification)
    (hbad : ∃ h ∈ run.hits,
      h.targetDecoy ≠ "target".data ∧ h.targetDecoy ≠ "decoy".data) :
    ∃ e, writeProteinLists m run = .error e := by
  obtain ⟨e, he⟩ := gatherLists_error_of_unlabeled m run.hits [] [] hbad
  rw [writeProteinLists, he]
  exact ⟨e, rfl⟩

/-- C9 (amended): in parameter-estimation mode, a protein hit whose
target/decoy annotation is missing or invalid makes the invocation fail
with a hard error before the engine process is started: the result is an
error and the effect trace contains no engine-start event. In
direct-probability mode the check never runs (see the counterexample). -/
theorem unlabeled_hit_aborts_before_engine (m : List (Str × Str)) (pp : Str)
    (keep : Bool) (tempDir : Str) (counter : Nat)
    (run : ProteinIdentification) (peptides : List PeptideIdentification)
    (engineOut : Option (List (ℚ × List Str)))
    (hbad : ∃ h ∈ run.hits,
      h.targetDecoy ≠ "target".data ∧ h.targetDecoy ≠ "decoy".data) :
    (∃ e, (runFidoModel m pp true keep tempDir counter run peptides engineOut).2
       = .error e) ∧
    FidoEvent.engineStarted ∉
      (runFidoModel m pp true keep tempDir counter run peptides engineOut).1 := by
  rw [runFidoModel]
  cases hg : writePSMGraph m pp peptides run.identifier with
  | error e => exact ⟨⟨e, rfl⟩, by simp⟩
  | ok g =>
    obtain ⟨e, he⟩ := writeProteinLists_error_of_unlabeled m run hbad
    simp only [if_true]
    rw [he]
    exact ⟨⟨e, rfl⟩, by simp⟩

/-- Witness for the C9 theorem at a concrete unlabeled hit. -/
theorem unlabeled_hit_aborts_before_engine_witness :
    (∃ e, (runFidoModel (buildSanitizer ["AA".data]) "pp".data true false
       "td".data 1 ⟨"r1".data, [⟨"AA".data, [], 0⟩]⟩ [] (some [])).2
       = .error e) ∧
    FidoEvent.engineStarted ∉
      (runFidoModel (buildSanitizer ["AA".data]) "pp".data true false
       "td".data 1 ⟨"r1".data, [⟨"AA".data, [], 0⟩]⟩ [] (some [])).1 :=
  unlabeled_hit_aborts_before_engine (buildSanitizer ["AA".data]) "pp".data
    false "td".data 1 ⟨"r1".data, [⟨"AA".data, [], 0⟩]⟩ [] (some [])
    (by refine ⟨⟨"AA".data, [], 0⟩, by simp, by decide, by decide⟩)

/-- C9 counterexample: in direct-probability mode the same run, with a
protein hit lacking the target/decoy annotation, does not abort: the
engine process is started and the invocation reports success. -/
theorem unlabeled_hit_direct_mode_counterexample :
    (∃ h ∈ (⟨"r1".data, [⟨"AA".data, [], 0⟩]⟩ : ProteinIdentification).hits,
       h.targetDecoy ≠ "target".data ∧ h.targetDecoy ≠ "decoy".data) ∧
    (runFidoModel (buildSanitizer ["AA".data]) "pp".data false false "td".data 0
       ⟨"r1".data, [⟨"AA".data, [], 0⟩]⟩ [] (some [])).2 = .ok true ∧
    FidoEvent.engineStarted ∈
      (runFidoModel (buildSanitizer ["AA".data]) "pp".data false false "td".data 0
       ⟨"r1".data, [⟨"AA".data, [], 0⟩]⟩ [] (some [])).1 := by
  refine ⟨⟨⟨"AA".data, [], 0⟩, by simp, by decide, by decide⟩, rfl, by decide⟩

theorem lookupLeft_buildSanitizer_isSome (accs : List Str) (a : Str)
    (ha : a ∈ accs) : (lookupLeft (buildSanitizer accs) a).isSome = true := by
  have hS := (mem_setOfList a accs).2 ha
  obtain ⟨i, hi, hget⟩ := List.mem_iff_getElem.1 hS
  have hL := lookupLeft_sanitizeAux (setOfList accs) 1 (setOfList_nodup accs) i hi
  rw [hget] at hL
  rw [buildSanitizer, hL]
  rfl

theorem isLookupError_map (f : α → β) (x : Except EncodeError α) :
    isLookupError (x.map f) = isLookupError x := by
  cases x with
  | error e => cases e <;> rfl
  | ok a => rfl

theorem encodeHit_not_lookup_error (m : List (Str × Str)) (pp : Str)
    (pid : PeptideIdentification) (h : PeptideHit)
    (hlook : ∀ a ∈ extractAccessions h, a.isEmpty = false →
      (lookupLeft m a).isSome = true) :
    isLookupError (encodeHit m pp pid h) = false := by
  rw [encodeHit]
  rcases hres : resolveScore pp pid h with ⟨s, conv, r0⟩
  dsimp only
  cases hfr : finalReason s r0 with
  | some reason => rfl
  | none =>
    obtain ⟨ls, hls⟩ := rLinesFor_ok m (extractAccessions h) hlook
    rw [hls]
    rfl

theorem encodePep_not_lookup_error (m : List (Str × Str)) (pp fid : Str)
    (pid : PeptideIdentification) (warned : Bool)
    (hlook : ∀ h ∈ pid.hits, ∀ a ∈ extractAccessions h, a.isEmpty = false →
      (lookupLeft m a).isSome = true) :
    isLookupError (encodePep m pp fid pid warned) = false := by
  rw [encodePep]
  by_cases hc1 : ((!fid.isEmpty && pid.identifier != fid) || pid.hits.isEmpty) = true
  · rw [if_pos hc1]
    rfl
  · rw [if_neg hc1]
    cases hsh : sortHits pid with
    | nil => rfl
    | cons h tl =>
      dsimp only
      by_cases hc2 : (h.sequence.isEmpty || (extractAccessions h).isEmpty) = true
      · rw [if_pos hc2]
        rfl
      · rw [if_neg hc2]
        rw [isLookupError_map]
        refine encodeHit_not_lookup_error m pp pid h (hlook h ?_)
        have hm : h ∈ sortHits pid := by rw [hsh]; simp
        rw [sortHits] at hm
        exact (mem_sortBy _ _ _).1 hm

theorem writePSMGraphAux_not_lookup_error (m : List (Str × Str)) (pp fid : Str) :
    ∀ (peptides : List PeptideIdentification) (warned : Bool) (wc : Nat),
      (∀ pid ∈ peptides, ∀ h ∈ pid.hits, ∀ a ∈ extractAccessions h,
        a.isEmpty = false → (lookupLeft m a).isSome = true) →
      isLookupError (writePSMGraphAux m pp fid peptides warned wc) = false
  | [], _, _, _ => rfl
  | pid :: rest, warned, wc, hlook => by
    simp only [writePSMGraphAux]
    cases henc : encodePep m pp fid pid warned with
    | error e =>
      have hne := encodePep_not_lookup_error m pp fid pid warned (hlook pid (by simp))
      rw [henc] at hne
      dsimp only
      cases e with
      | unregisteredAccession a => exact absurd hne (by simp [isLookupError])
      | unsuitableScore r => rfl
      | missingTargetDecoy => rfl
      | noTargets => rfl
      | noDecoys => rfl
    | ok r =>
      obtain ⟨ls, w2, em⟩ := r
      dsimp only
      rw [isLookupError_map]
      exact writePSMGraphAux_not_lookup_error m pp fid rest w2 _
        (fun p hp => hlook p (by simp [hp]))

theorem gatherLists_not_lookup_error (m : List (Str × Str)) :
    ∀ (hs : List ProteinHit) (ts ds : List Str),
      (∀ h ∈ hs, (lookupLeft m h.accession).isSome = true) →
      isLookupError (gatherLists m hs ts ds) = false
  | [], _, _, _ => rfl
  | h :: rest, ts, ds, hlook => by
    simp only [gatherLists]
    obtain ⟨tok, htok⟩ := Option.isSome_iff_exists.1 (hlook h (by simp))
    rw [htok]
    dsimp only
    by_cases h1 : (h.targetDecoy == "target".data) = true
    · rw [if_pos h1]
      exact gatherLists_not_lookup_error m rest _ _ (fun x hx => hlook x (by simp [hx]))
    · rw [if_neg h1]
      by_cases h2 : (h.targetDecoy == "decoy".data) = true
      · rw [if_pos h2]
        exact gatherLists_not_lookup_error m rest _ _ (fun x hx => hlook x (by simp [hx]))
      · rw [if_neg h2]
        rfl

theorem writeProteinLists_not_lookup_error (m : List (Str × Str))
    (run : ProteinIdentification)
    (hlook : ∀ h ∈ run.hits, (lookupLeft m h.accession).isSome = true) :
    isLookupError (writeProteinLists m run) = false := by
  rw [writeProteinLists]
  cases hg : gatherLists m run.hits [] [] with
  | error e =>
    have hne := gatherLists_not_lookup_error m run.hits [] [] hlook
    rw [hg] at hne
    exact hne
  | ok p =>
    obtain ⟨ts, ds⟩ := p
    dsimp only
    by_cases h1 : ts.isEmpty = true
    · rw [if_pos h1]
      rfl
    · rw [if_neg h1]
      by_cases h2 : ds.isEmpty = true
      · rw [if_pos h2]
        rfl
      · rw [if_neg h2]
        rfl

/-- C10: with the sanitizer built from all protein hit accessions of all
runs before any encoding, and with peptide hits referencing only those
accessions (which the repository's data model guarantees, since peptide
protein references resolve to the runs' protein hits), every lookup
performed during graph encoding and during protein-list encoding
succeeds: the unregistered-accession failure branch is unreachable. -/
theorem sanitizer_lookups_total (runs : List ProteinIdentification)
    (peptides : List PeptideIdentification)
    (hwf : ∀ pid ∈ peptides, ∀ h ∈ pid.hits, ∀ a ∈ h.evidenceAccessions,
       a ∈ allAccessions runs) :
    (∀ fid pp : Str, isLookupError
       (writePSMGraph (buildSanitizer (allAccessions runs)) pp peptides fid) = false) ∧
    (∀ run ∈ runs, isLookupError
       (writeProteinLists (buildSanitizer (allAccessions runs)) run) = false) := by
  constructor
  · intro fid pp
    rw [writePSMGraph]
    refine writePSMGraphAux_not_lookup_error _ pp fid peptides false 0 ?_
    intro pid hpid h hh a ha _
    refine lookupLeft_buildSanitizer_isSome _ a ?_
    have hev : a ∈ h.evidenceAccessions := by
      rw [extractAccessions] at ha
      exact (mem_setOfList a _).1 ha
    exact hwf pid hpid h hh a hev
  · intro run hrun
    refine writeProteinLists_not_lookup_error _ run ?_
    intro h hh
    refine lookupLeft_buildSanitizer_isSome _ h.accession ?_
    rw [allAccessions]
    exact List.mem_flatMap.2 ⟨run, hrun, List.mem_map.2 ⟨h, hh, rfl⟩⟩

/-- Witness for the C10 theorem at a concrete one-run input. -/
theorem sanitizer_lookups_total_witness :
    (∀ fid pp : Str, isLookupError
       (writePSMGraph (buildSanitizer (allAccessions
          [⟨"r1".data, [⟨"AA".data, "target".data, 0⟩]⟩])) pp
          [⟨"r1".data, "t".data, true, [⟨"P".data, 0, [], ["AA".data]⟩]⟩] fid)
       = false) ∧
    (∀ run ∈ [(⟨"r1".data, [⟨"AA".data, "target".data, 0⟩]⟩ : ProteinIdentification)],
       isLookupError
         (writeProteinLists (buildSanitizer (allAccessions
            [⟨"r1".data, [⟨"AA".data, "target".data, 0⟩]⟩])) run) = false) :=
  sanitizer_lookups_total
    [⟨"r1".data, [⟨"AA".data, "target".data, 0⟩]⟩]
    [⟨"r1".data, "t".data, true, [⟨"P".data, 0, [], ["AA".data]⟩]⟩]
    (by decide)

/-- C1 (code bug): in separate-runs mode with two runs and the direct
mode argument list holding the INPUT_GRAPH placeholder, the second
invocation writes its own graph at the suffix-2 temp path, yet starts
the engine with an argument list identical to the first invocation's:
it names the suffix-1 graph file and never mentions the suffix-2 file,
because the first iteration's in-place substitution consumed the
placeholder. The engine is therefore not invoked on the second run's
graph file, contrary to the claim and to the intent of the
separate-runs flag and of the numbered temp files. -/
theorem separate_runs_engine_args_bug :
    ((separateRunsInvocations [] "pp".data false "td".data []
        ["INPUT_GRAPH".data, "0.5".data, "0.1".data, "0.01".data]
        [⟨"r1".data, []⟩, ⟨"r2".data, []⟩]).map
          (fun inv => (inv.runGraphPath, inv.engineArgs))
      = [(graphFilePath "td".data 1,
          [graphFilePath "td".data 1, "0.5".data, "0.1".data, "0.01".data]),
         (graphFilePath "td".data 2,
          [graphFilePath "td".data 1, "0.5".data, "0.1".data, "0.01".data])]) ∧
    graphFilePath "td".data 2 ∉
      [graphFilePath "td".data 1, "0.5".data, "0.1".data, "0.01".data] := by
  constructor
  · decide
  · decide
